import Mathlib

set_option maxRecDepth 4000

namespace LuminaJson

/-- Model of the JavaScript `str.replace(/c/g, repl)` call for a single-character
pattern `p`: every occurrence of `p` in the character list is replaced by `r`,
scanning left to right. -/
def replace1 (p : Char) (r : List Char) : List Char → List Char
  | [] => []
  | c :: cs => if c = p then r ++ replace1 p r cs else c :: replace1 p r cs

/-- Model of the JavaScript `str.replace(/xy/g, repl)` call for a two-character
pattern `p₀ p₁`: occurrences are replaced left to right without overlap, exactly
as a global regex replace proceeds. -/
def replace2 (p₀ p₁ : Char) (r : List Char) : List Char → List Char
  | [] => []
  | [c] => [c]
  | c₀ :: c₁ :: cs =>
    if c₀ = p₀ ∧ c₁ = p₁ then r ++ replace2 p₀ p₁ r cs
    else c₀ :: replace2 p₀ p₁ r (c₁ :: cs)

/-- `escapeString` from `src/App.tsx` (lines 80–88): seven chained global
replaces, each with a single-character pattern — backslash first, then quote,
newline, carriage return, tab, backspace, form feed. -/
def escapeString (s : List Char) : List Char :=
  replace1 '\x0C' ['\\', 'f']
    (replace1 '\x08' ['\\', 'b']
      (replace1 '\t' ['\\', 't']
        (replace1 '\r' ['\\', 'r']
          (replace1 '\n' ['\\', 'n']
            (replace1 '"' ['\\', '"']
              (replace1 '\\' ['\\', '\\'] s))))))

/-- `unescapeString` from `src/App.tsx` (lines 90–98): seven chained global
replaces with two-character patterns — `\n`, `\r`, `\t`, `\b`, `\f`, `\"`
first, and `\\` collapsed last. -/
def unescapeString (s : List Char) : List Char :=
  replace2 '\\' '\\' ['\\']
    (replace2 '\\' '"' ['"']
      (replace2 '\\' 'f' ['\x0C']
        (replace2 '\\' 'b' ['\x08']
          (replace2 '\\' 't' ['\t']
            (replace2 '\\' 'r' ['\r']
              (replace2 '\\' 'n' ['\n'] s))))))

/-! ### Single-pass characterization of `escapeString`

All seven replaces in `escapeString` use single-character patterns, and no
replacement string contains a character matched by a later pattern, so the
whole chain is equivalent to one pass over the input. -/

theorem replace1_append (p : Char) (r a b : List Char) :
    replace1 p r (a ++ b) = replace1 p r a ++ replace1 p r b := by
  induction a with
  | nil => rfl
  | cons c cs ih =>
    simp only [List.cons_append, replace1, ih]
    split <;> simp [ih]

theorem replace1_single_ne (p : Char) (r : List Char) (c : Char) (h : c ≠ p) :
    replace1 p r [c] = [c] := by
  simp [replace1, h]

/-- The per-character escape map that `escapeString` implements. -/
def escChar (c : Char) : List Char :=
  if c = '\\' then ['\\', '\\']
  else if c = '"' then ['\\', '"']
  else if c = '\n' then ['\\', 'n']
  else if c = '\r' then ['\\', 'r']
  else if c = '\t' then ['\\', 't']
  else if c = '\x08' then ['\\', 'b']
  else if c = '\x0C' then ['\\', 'f']
  else [c]

/-- Sequential concatenation of a character-to-string map over a string. -/
def concatMap (f : Char → List Char) : List Char → List Char
  | [] => []
  | c :: cs => f c ++ concatMap f cs

theorem escapeString_single (c : Char) : escapeString [c] = escChar c := by
  by_cases h1 : c = '\\'
  · subst h1; rfl
  by_cases h2 : c = '"'
  · subst h2; rfl
  by_cases h3 : c = '\n'
  · subst h3; rfl
  by_cases h4 : c = '\r'
  · subst h4; rfl
  by_cases h5 : c = '\t'
  · subst h5; rfl
  by_cases h6 : c = '\x08'
  · subst h6; rfl
  by_cases h7 : c = '\x0C'
  · subst h7; rfl
  simp only [escapeString]
  rw [replace1_single_ne _ _ _ h1, replace1_single_ne _ _ _ h2,
    replace1_single_ne _ _ _ h3, replace1_single_ne _ _ _ h4,
    replace1_single_ne _ _ _ h5, replace1_single_ne _ _ _ h6,
    replace1_single_ne _ _ _ h7]
  simp [escChar, h1, h2, h3, h4, h5, h6, h7]

theorem escapeString_eq_concatMap (s : List Char) :
    escapeString s = concatMap escChar s := by
  induction s with
  | nil => rfl
  | cons c cs ih =>
    have h : escapeString (c :: cs) = escapeString [c] ++ escapeString cs := by
      show escapeString ([c] ++ cs) = _
      simp only [escapeString, replace1_append]
    rw [h, ih, escapeString_single, concatMap]

/-! ### Token view of escaped text, for reasoning about `unescapeString` -/

/-- A token of escaped text: either a raw character or a two-character escape
sequence `\l`. -/
inductive Tok where
  | raw (c : Char) : Tok
  | esc (l : Char) : Tok
  deriving DecidableEq

def Tok.render : Tok → List Char
  | .raw c => [c]
  | .esc l => ['\\', l]

def renderToks : List Tok → List Char
  | [] => []
  | t :: ts => t.render ++ renderToks ts

/-- Neither the raw character nor the escape letter of the token is a
backslash. -/
def Tok.noBS : Tok → Prop
  | .raw c => c ≠ '\\'
  | .esc l => l ≠ '\\'

theorem replace2_cons_ne (p₀ p₁ c : Char) (r cs : List Char) (h : c ≠ p₀) :
    replace2 p₀ p₁ r (c :: cs) = c :: replace2 p₀ p₁ r cs := by
  cases cs with
  | nil => rfl
  | cons c₁ cs' =>
    simp only [replace2]
    rw [if_neg]
    intro ⟨h₀, _⟩
    exact h h₀

theorem replace2_not_mem (p₀ p₁ : Char) (r s : List Char) (h : p₀ ∉ s) :
    replace2 p₀ p₁ r s = s := by
  induction s with
  | nil => rfl
  | cons c cs ih =>
    have hc : c ≠ p₀ := fun he => h (he ▸ List.mem_cons_self c cs)
    rw [replace2_cons_ne _ _ _ _ _ hc, ih (fun hm => h (List.mem_cons_of_mem _ hm))]

/-- Applying one unescape substitution `\l ↦ c` at the token level. -/
def unescTok (l c : Char) : Tok → Tok
  | .esc l' => if l' = l then .raw c else .esc l'
  | .raw c' => .raw c'

/-- One two-character unescape replacement acts token-wise on text whose
tokens are free of backslashes. -/
theorem replace2_render (l c : Char) (ts : List Tok) (h : ∀ t ∈ ts, t.noBS) :
    replace2 '\\' l [c] (renderToks ts) = renderToks (ts.map (unescTok l c)) := by
  induction ts with
  | nil => rfl
  | cons t rest ih =>
    have hrest : ∀ t ∈ rest, t.noBS := fun t ht => h t (List.mem_cons_of_mem _ ht)
    have hhd : t.noBS := h t (List.mem_cons_self t rest)
    cases t with
    | raw c' =>
      have hc' : c' ≠ '\\' := hhd
      simp only [renderToks, Tok.render, List.map, unescTok, List.cons_append,
        List.nil_append]
      rw [replace2_cons_ne _ _ _ _ _ hc', ih hrest]
    | esc l' =>
      have hl' : l' ≠ '\\' := hhd
      by_cases he : l' = l
      · subst he
        have hstep : replace2 '\\' l' [c] ('\\' :: l' :: renderToks rest)
            = c :: replace2 '\\' l' [c] (renderToks rest) := by
          simp [replace2]
        simp only [renderToks, Tok.render, List.map, unescTok, if_pos rfl,
          List.cons_append, List.nil_append]
        rw [hstep, ih hrest]
        simp
      · have hstep : replace2 '\\' l [c] ('\\' :: l' :: renderToks rest)
            = '\\' :: replace2 '\\' l [c] (l' :: renderToks rest) := by
          simp [replace2, he]
        simp only [renderToks, Tok.render, List.map, unescTok, if_neg he,
          List.cons_append, List.nil_append]
        rw [hstep, replace2_cons_ne _ _ _ _ _ hl', ih hrest]

/-- Tokenization of a backslash-free string after `escapeString`. -/
def tokOf (c : Char) : Tok :=
  if c = '"' then .esc '"'
  else if c = '\n' then .esc 'n'
  else if c = '\r' then .esc 'r'
  else if c = '\t' then .esc 't'
  else if c = '\x08' then .esc 'b'
  else if c = '\x0C' then .esc 'f'
  else .raw c

theorem escChar_render (c : Char) (h : c ≠ '\\') : escChar c = (tokOf c).render := by
  simp only [escChar, tokOf, if_neg h]
  by_cases h2 : c = '"'
  · simp [h2, Tok.render]
  by_cases h3 : c = '\n'
  · simp [h2, h3, Tok.render]
  by_cases h4 : c = '\r'
  · simp [h2, h3, h4, Tok.render]
  by_cases h5 : c = '\t'
  · simp [h2, h3, h4, h5, Tok.render]
  by_cases h6 : c = '\x08'
  · simp [h2, h3, h4, h5, h6, Tok.render]
  by_cases h7 : c = '\x0C'
  · simp [h2, h3, h4, h5, h6, h7, Tok.render]
  simp [h2, h3, h4, h5, h6, h7, Tok.render]

theorem escape_render_toks (s : List Char) (h : '\\' ∉ s) :
    escapeString s = renderToks (s.map tokOf) := by
  rw [escapeString_eq_concatMap]
  induction s with
  | nil => rfl
  | cons c cs ih =>
    have hc : c ≠ '\\' := fun he => h (he ▸ List.mem_cons_self c cs)
    simp only [concatMap, List.map, renderToks]
    rw [escChar_render c hc, ih (fun hm => h (List.mem_cons_of_mem _ hm))]

theorem unescTok_noBS (l c : Char) (hc : c ≠ '\\') (t : Tok) (h : t.noBS) :
    (unescTok l c t).noBS := by
  cases t with
  | raw c' => exact h
  | esc l' =>
    simp only [unescTok]
    split
    · exact hc
    · exact h

theorem noBS_map_unesc (l c : Char) (hc : c ≠ '\\') (ts : List Tok)
    (h : ∀ t ∈ ts, t.noBS) : ∀ t ∈ ts.map (unescTok l c), t.noBS := by
  intro t ht
  obtain ⟨t', ht', rfl⟩ := List.mem_map.mp ht
  exact unescTok_noBS l c hc t' (h t' ht')

theorem tokOf_noBS (c : Char) (h : c ≠ '\\') : (tokOf c).noBS := by
  by_cases h2 : c = '"'
  · subst h2; show ('"' : Char) ≠ '\\'; decide
  by_cases h3 : c = '\n'
  · subst h3; show ('n' : Char) ≠ '\\'; decide
  by_cases h4 : c = '\r'
  · subst h4; show ('r' : Char) ≠ '\\'; decide
  by_cases h5 : c = '\t'
  · subst h5; show ('t' : Char) ≠ '\\'; decide
  by_cases h6 : c = '\x08'
  · subst h6; show ('b' : Char) ≠ '\\'; decide
  by_cases h7 : c = '\x0C'
  · subst h7; show ('f' : Char) ≠ '\\'; decide
  simp only [tokOf, if_neg h2, if_neg h3, if_neg h4, if_neg h5, if_neg h6, if_neg h7]
  exact h

theorem noBS_map_tokOf (s : List Char) (h : '\\' ∉ s) :
    ∀ t ∈ s.map tokOf, t.noBS := by
  intro t ht
  obtain ⟨c, hc, rfl⟩ := List.mem_map.mp ht
  exact tokOf_noBS c (fun he => h (he ▸ hc))

/-- The six specific unescape substitutions, applied in the order of
`unescapeString`, turn the token of any backslash-free character back into
that raw character. -/
theorem tokOf_unesc_all (c : Char) (h : c ≠ '\\') :
    unescTok '"' '"' (unescTok 'f' '\x0C' (unescTok 'b' '\x08'
      (unescTok 't' '\t' (unescTok 'r' '\r' (unescTok 'n' '\n' (tokOf c))))))
      = Tok.raw c := by
  by_cases h2 : c = '"'
  · subst h2; rfl
  by_cases h3 : c = '\n'
  · subst h3; rfl
  by_cases h4 : c = '\r'
  · subst h4; rfl
  by_cases h5 : c = '\t'
  · subst h5; rfl
  by_cases h6 : c = '\x08'
  · subst h6; rfl
  by_cases h7 : c = '\x0C'
  · subst h7; rfl
  simp [tokOf, h2, h3, h4, h5, h6, h7, unescTok]

theorem renderToks_raw (s : List Char) :
    renderToks (s.map (fun c => Tok.raw c)) = s := by
  induction s with
  | nil => rfl
  | cons c cs ih => simp only [List.map, renderToks, Tok.render, ih]; rfl

theorem toks_fully_unescaped (s : List Char) (h : '\\' ∉ s) :
    (((((((s.map tokOf).map (unescTok 'n' '\n')).map (unescTok 'r' '\r')).map
      (unescTok 't' '\t')).map (unescTok 'b' '\x08')).map (unescTok 'f' '\x0C')).map
      (unescTok '"' '"')) = s.map (fun c => Tok.raw c) := by
  induction s with
  | nil => rfl
  | cons c cs ih =>
    have hcb : c ≠ '\\' := fun he => h (he ▸ List.mem_cons_self c cs)
    simp only [List.map]
    rw [tokOf_unesc_all c hcb, ih (fun hm => h (List.mem_cons_of_mem _ hm))]

/-- C1 (counterexample): the round trip fails on the two-character string
`\n` (a literal backslash followed by the letter n): `escapeString` doubles
the backslash, and `unescapeString`'s `\n`-substitution then consumes the
second backslash together with the `n`, yielding a backslash followed by a
newline character. -/
theorem c1_counterexample :
    unescapeString (escapeString ['\\', 'n']) ≠ ['\\', 'n'] := by decide

/-- C1 (amended): for every string containing no backslash,
`unescapeString (escapeString s) = s`.  (The unrestricted claim is false: see
`c1_counterexample`.) -/
theorem c1_roundtrip_backslash_free (s : List Char) (h : '\\' ∉ s) :
    unescapeString (escapeString s) = s := by
  rw [escape_render_toks s h]
  have h0 : ∀ t ∈ s.map tokOf, t.noBS := noBS_map_tokOf s h
  have h1 := noBS_map_unesc 'n' '\n' (by decide) _ h0
  have h2 := noBS_map_unesc 'r' '\r' (by decide) _ h1
  have h3 := noBS_map_unesc 't' '\t' (by decide) _ h2
  have h4 := noBS_map_unesc 'b' '\x08' (by decide) _ h3
  have h5 := noBS_map_unesc 'f' '\x0C' (by decide) _ h4
  simp only [unescapeString]
  rw [replace2_render 'n' '\n' _ h0, replace2_render 'r' '\r' _ h1,
    replace2_render 't' '\t' _ h2, replace2_render 'b' '\x08' _ h3,
    replace2_render 'f' '\x0C' _ h4, replace2_render '"' '"' _ h5]
  rw [toks_fully_unescaped s h, renderToks_raw]
  exact replace2_not_mem _ _ _ _ h

/-- C1 (witness): the amended round trip at the concrete string `a"⏎`. -/
theorem c1_witness :
    '\\' ∉ ['a', '"', '\n'] ∧
      unescapeString (escapeString ['a', '"', '\n']) = ['a', '"', '\n'] :=
  ⟨by decide, c1_roundtrip_backslash_free ['a', '"', '\n'] (by decide)⟩

/-! ### C8: shape of `escapeString` output -/

/-- The letter of a valid two-character escape sequence. -/
def escLetter (l : Char) : Bool :=
  decide (l = '\\' ∨ l = '"' ∨ l = 'n' ∨ l = 'r' ∨ l = 't' ∨ l = 'b' ∨ l = 'f')

mutual

/-- The well-formedness predicate the original claim C8 asserts of
`escapeString` output: scanning left to right, every backslash begins one of
the seven two-character escape sequences, and every other character is
neither a double quote nor any control character (code point below 32). -/
def wellEscapedStrict : List Char → Bool
  | [] => true
  | c :: cs =>
    if c = '\\' then wellEscapedStrictTail cs
    else decide (c ≠ '"' ∧ ¬c.toNat < 32) && wellEscapedStrict cs

def wellEscapedStrictTail : List Char → Bool
  | [] => false
  | l :: rest => escLetter l && wellEscapedStrict rest

end

mutual

/-- The amended well-formedness predicate: as `wellEscapedStrict`, but only
the five control characters the code actually handles (newline, carriage
return, tab, backspace, form feed) are required to be escaped; other control
characters may appear raw. -/
def wellEscaped : List Char → Bool
  | [] => true
  | c :: cs =>
    if c = '\\' then wellEscapedTail cs
    else
      decide (c ≠ '"' ∧ c ≠ '\n' ∧ c ≠ '\r' ∧ c ≠ '\t' ∧ c ≠ '\x08' ∧ c ≠ '\x0C')
        && wellEscaped cs

def wellEscapedTail : List Char → Bool
  | [] => false
  | l :: rest => escLetter l && wellEscaped rest

end

/-- C8 (counterexample): the vertical-tab character (code 11) is a control
character, and `escapeString` passes it through unescaped, so the output of
`escapeString` can contain an unescaped control character. -/
theorem c8_counterexample :
    wellEscapedStrict (escapeString ['\x0B']) = false := by decide

theorem wellEscaped_escChar (c : Char) (x : List Char) :
    wellEscaped (escChar c ++ x) = wellEscaped x := by
  by_cases h1 : c = '\\'
  · subst h1; simp [escChar, wellEscaped, wellEscapedTail, escLetter]
  by_cases h2 : c = '"'
  · subst h2; simp [escChar, wellEscaped, wellEscapedTail, escLetter]
  by_cases h3 : c = '\n'
  · subst h3; simp [escChar, wellEscaped, wellEscapedTail, escLetter]
  by_cases h4 : c = '\r'
  · subst h4; simp [escChar, wellEscaped, wellEscapedTail, escLetter]
  by_cases h5 : c = '\t'
  · subst h5; simp [escChar, wellEscaped, wellEscapedTail, escLetter]
  by_cases h6 : c = '\x08'
  · subst h6; simp [escChar, wellEscaped, wellEscapedTail, escLetter]
  by_cases h7 : c = '\x0C'
  · subst h7; simp [escChar, wellEscaped, wellEscapedTail, escLetter]
  simp only [escChar, if_neg h1, if_neg h2, if_neg h3, if_neg h4, if_neg h5,
    if_neg h6, if_neg h7, List.cons_append, List.nil_append, wellEscaped]
  have hd : decide (c ≠ '"' ∧ c ≠ '\n' ∧ c ≠ '\r' ∧ c ≠ '\t' ∧ c ≠ '\x08' ∧ c ≠ '\x0C')
      = true := decide_eq_true ⟨h2, h3, h4, h5, h6, h7⟩
  rw [hd, Bool.true_and]

/-- C8 (amended): for every input string, the output of `escapeString`
contains no unescaped double quote, none of the five handled control
characters (newline, carriage return, tab, backspace, form feed) unescaped,
and no backslash that does not begin one of the seven escape sequences.
(The original claim — that no control character at all survives unescaped —
is false: see `c8_counterexample`.) -/
theorem c8_escape_well_formed (s : List Char) :
    wellEscaped (escapeString s) = true := by
  rw [escapeString_eq_concatMap]
  induction s with
  | nil => rfl
  | cons c cs ih => rw [concatMap, wellEscaped_escChar, ih]

/-! ### Decimal digit strings -/

/-- Decimal digit test, as the parser's character class `[0-9]`. -/
def jsIsDigit (c : Char) : Bool := decide (48 ≤ c.toNat ∧ c.toNat ≤ 57)

/-- Numeric value of a decimal digit character. -/
def digitVal (c : Char) : Nat := c.toNat - 48

/-- The decimal digit character for a value below ten. -/
def digitChar : Nat → Char
  | 0 => '0' | 1 => '1' | 2 => '2' | 3 => '3' | 4 => '4'
  | 5 => '5' | 6 => '6' | 7 => '7' | 8 => '8' | _ => '9'

theorem digitVal_digitChar (d : Nat) (h : d < 10) : digitVal (digitChar d) = d := by
  interval_cases d <;> rfl

theorem jsIsDigit_digitChar (d : Nat) (h : d < 10) : jsIsDigit (digitChar d) = true := by
  interval_cases d <;> rfl

def natDigitsAux : Nat → Nat → List Char
  | 0, _ => []
  | f + 1, n =>
    if n < 10 then [digitChar n]
    else natDigitsAux f (n / 10) ++ [digitChar (n % 10)]

/-- Decimal digit string of a natural number, most significant digit first
(the output of JavaScript `String(n)` for a whole number). -/
def natDigits (n : Nat) : List Char := natDigitsAux (n + 1) n

theorem natDigitsAux_fuel (f g n : Nat) (hf : n < f) (hg : n < g) :
    natDigitsAux f n = natDigitsAux g n := by
  induction f generalizing g n with
  | zero => omega
  | succ f ih =>
    cases g with
    | zero => omega
    | succ g =>
      simp only [natDigitsAux]
      by_cases h : n < 10
      · simp [h]
      · have hd : n / 10 < n := Nat.div_lt_self (by omega) (by omega)
        rw [if_neg h, if_neg h, ih g (n / 10) (by omega) (by omega)]

theorem natDigits_lt (n : Nat) (h : n < 10) : natDigits n = [digitChar n] := by
  simp [natDigits, natDigitsAux, h]

theorem natDigits_ge (n : Nat) (h : 10 ≤ n) :
    natDigits n = natDigits (n / 10) ++ [digitChar (n % 10)] := by
  have hd : n / 10 < n := Nat.div_lt_self (by omega) (by omega)
  show natDigitsAux (n + 1) n = natDigitsAux (n / 10 + 1) (n / 10) ++ [digitChar (n % 10)]
  rw [natDigitsAux, if_neg (by omega : ¬n < 10)]
  exact congrArg (fun l => l ++ [digitChar (n % 10)])
    (natDigitsAux_fuel n (n / 10 + 1) (n / 10) (by omega) (by omega))

def valStep (a : Nat) (c : Char) : Nat := 10 * a + digitVal c

/-- Numeric value of a decimal digit string, most significant digit first. -/
def valOfDigits (ds : List Char) : Nat := ds.foldl valStep 0

theorem valOfDigits_foldl (acc : Nat) (ds : List Char) :
    ds.foldl valStep acc = acc * 10 ^ ds.length + valOfDigits ds := by
  induction ds generalizing acc with
  | nil => simp [valOfDigits]
  | cons c cs ih =>
    show List.foldl valStep (valStep acc c) cs = _
    rw [ih (valStep acc c)]
    have h2 : valOfDigits (c :: cs) = digitVal c * 10 ^ cs.length + valOfDigits cs := by
      show List.foldl valStep (valStep 0 c) cs = _
      rw [ih (valStep 0 c)]
      simp [valStep]
    rw [h2]
    simp only [valStep, List.length_cons]
    ring

theorem valOfDigits_append (a b : List Char) :
    valOfDigits (a ++ b) = valOfDigits a * 10 ^ b.length + valOfDigits b := by
  show List.foldl valStep 0 (a ++ b) = _
  rw [List.foldl_append, valOfDigits_foldl]
  rfl

theorem valOfDigits_natDigits (n : Nat) : valOfDigits (natDigits n) = n := by
  induction n using Nat.strong_induction_on with
  | _ n ih =>
    by_cases h : n < 10
    · rw [natDigits_lt n h]
      show valStep 0 (digitChar n) = n
      simp [valStep, digitVal_digitChar n h]
    · have hd : n / 10 < n := Nat.div_lt_self (by omega) (by omega)
      rw [natDigits_ge n (by omega), valOfDigits_append, ih (n / 10) hd]
      have : valOfDigits [digitChar (n % 10)] = n % 10 := by
        show valStep 0 (digitChar (n % 10)) = n % 10
        simp [valStep, digitVal_digitChar (n % 10) (Nat.mod_lt n (by omega))]
      rw [this]
      simp only [List.length_singleton, pow_one]
      omega

theorem natDigits_all_digits (n : Nat) : ∀ c ∈ natDigits n, jsIsDigit c = true := by
  induction n using Nat.strong_induction_on with
  | _ n ih =>
    by_cases h : n < 10
    · rw [natDigits_lt n h]
      intro c hc
      rw [List.mem_singleton.mp hc]
      exact jsIsDigit_digitChar n h
    · have hd : n / 10 < n := Nat.div_lt_self (by omega) (by omega)
      rw [natDigits_ge n (by omega)]
      intro c hc
      rcases List.mem_append.mp hc with h1 | h2
      · exact ih (n / 10) hd c h1
      · rw [List.mem_singleton.mp h2]
        exact jsIsDigit_digitChar (n % 10) (Nat.mod_lt n (by omega))

theorem natDigits_ne_nil (n : Nat) : natDigits n ≠ [] := by
  by_cases h : n < 10
  · rw [natDigits_lt n h]; simp
  · rw [natDigits_ge n (by omega)]; simp

/-- The in-memory value model: the result of a `JSON.parse` call.  Objects are
ordered key/value lists (insertion order is significant); numbers are modelled
exactly as sign, decimal mantissa and decimal exponent rather than as binary
floating point. -/
inductive Json where
  | null : Json
  | bool (b : Bool) : Json
  | num (neg : Bool) (mant : Nat) (exp : Int) : Json
  | str (s : List Char) : Json
  | arr (elems : List Json) : Json
  | obj (fields : List (List Char × Json)) : Json

mutual

def sizeV : Json → Nat
  | .null | .bool _ | .num _ _ _ | .str _ => 1
  | .arr es => 1 + sizeL es
  | .obj fs => 1 + sizeF fs

def sizeL : List Json → Nat
  | [] => 1
  | v :: vs => 1 + sizeV v + sizeL vs

def sizeF : List (List Char × Json) → Nat
  | [] => 1
  | (_, v) :: fs => 1 + sizeV v + sizeF fs

end

/-! ### Number canonicalization

JSON numbers are modelled exactly, as a sign, a decimal mantissa and a decimal
exponent, brought to a canonical form (mantissa free of trailing zeros, zero
itself represented as `+0e0`).  This models the value identification performed
by `JSON.parse` — numerically equal numerals parse to equal values — without
modelling binary floating point. -/

def canonAux : Nat → Nat → Int → Nat × Int
  | 0, m, e => (m, e)
  | f + 1, m, e => if m ≠ 0 ∧ m % 10 = 0 then canonAux f (m / 10) (e + 1) else (m, e)

/-- Canonical number value from a raw (sign, mantissa, exponent) reading. -/
def canonNum (neg : Bool) (m : Nat) (e : Int) : Json :=
  if m = 0 then .num false 0 0
  else
    let p := canonAux m m e
    .num neg p.1 p.2

/-! ### Serialization: the model of `JSON.stringify` -/

/-- Hexadecimal digit character (lowercase), for `\u00XX` escapes. -/
def hexDigitChar : Nat → Char
  | 0 => '0' | 1 => '1' | 2 => '2' | 3 => '3' | 4 => '4'
  | 5 => '5' | 6 => '6' | 7 => '7' | 8 => '8' | 9 => '9'
  | 10 => 'a' | 11 => 'b' | 12 => 'c' | 13 => 'd' | 14 => 'e' | _ => 'f'

/-- How `JSON.stringify` escapes one character inside a string literal:
quote and backslash, the five short control escapes, `\u00XX` for the
remaining control characters, and everything else verbatim. -/
def escJsonChar (c : Char) : List Char :=
  if c = '"' then ['\\', '"']
  else if c = '\\' then ['\\', '\\']
  else if c = '\x08' then ['\\', 'b']
  else if c = '\x0C' then ['\\', 'f']
  else if c = '\n' then ['\\', 'n']
  else if c = '\r' then ['\\', 'r']
  else if c = '\t' then ['\\', 't']
  else if c.toNat < 32 then
    ['\\', 'u', '0', '0', hexDigitChar (c.toNat / 16), hexDigitChar (c.toNat % 16)]
  else [c]

def escJsonStr (s : List Char) : List Char := concatMap escJsonChar s

/-- A serialized JSON string literal, quotes included. -/
def printStr (s : List Char) : List Char := '"' :: (escJsonStr s ++ ['"'])

/-- Decimal rendering of an unsigned canonical mantissa/exponent pair. -/
def printMant (m : Nat) (e : Int) : List Char :=
  if 0 ≤ e then natDigits m ++ List.replicate e.toNat '0'
  else
    let ds := natDigits m
    let k := (-e).toNat
    if k < ds.length then ds.take (ds.length - k) ++ '.' :: ds.drop (ds.length - k)
    else '0' :: '.' :: (List.replicate (k - ds.length) '0' ++ ds)

/-- Serialized JSON number. -/
def printNum (neg : Bool) (m : Nat) (e : Int) : List Char :=
  (if neg then ['-'] else []) ++ printMant m e

/-- Indentation prefix at nesting level `n` for `JSON.stringify(v, null, 2)`. -/
def pad (n : Nat) : List Char := List.replicate (2 * n) ' '

mutual

/-- The model of `JSON.stringify(v, null, 2)`: 2-space indentation, one
member per line, a space after each object colon. -/
def printPretty (ind : Nat) : Json → List Char
  | .null => ['n', 'u', 'l', 'l']
  | .str s => printStr s
  | .bool true => ['t', 'r', 'u', 'e']
  | .num neg m e => printNum neg m e
  | .bool false => ['f', 'a', 'l', 's', 'e']
  | .arr [] => ['[', ']']
  | .arr (v :: vs) =>
    '[' :: '\n' :: (pad (ind + 1) ++ (printPretty (ind + 1) v ++ printItems ind vs))
  | .obj [] => ['\x7b', '\x7d']
  | .obj ((k, v) :: fs) =>
    '\x7b' :: '\n' :: (pad (ind + 1) ++
      (printStr k ++ ':' :: ' ' :: (printPretty (ind + 1) v ++ printFields ind fs)))

def printItems (ind : Nat) : List Json → List Char
  | [] => '\n' :: (pad ind ++ [']'])
  | v :: vs =>
    ',' :: '\n' :: (pad (ind + 1) ++ (printPretty (ind + 1) v ++ printItems ind vs))

def printFields (ind : Nat) : List (List Char × Json) → List Char
  | [] => '\n' :: (pad ind ++ ['\x7d'])
  | (k, v) :: fs =>
    ',' :: '\n' :: (pad (ind + 1) ++
      (printStr k ++ ':' :: ' ' :: (printPretty (ind + 1) v ++ printFields ind fs)))

end

mutual

/-- The model of `JSON.stringify(v)`: compact serialization with no
insignificant whitespace. -/
def printCompact : Json → List Char
  | .null => ['n', 'u', 'l', 'l']
  | .num neg m e => printNum neg m e
  | .bool true => ['t', 'r', 'u', 'e']
  | .str s => printStr s
  | .bool false => ['f', 'a', 'l', 's', 'e']
  | .arr [] => ['[', ']']
  | .arr (v :: vs) => '[' :: (printCompact v ++ printItemsC vs)
  | .obj [] => ['\x7b', '\x7d']
  | .obj ((k, v) :: fs) => '\x7b' :: (printStr k ++ ':' :: (printCompact v ++ printFieldsC fs))

def printItemsC : List Json → List Char
  | [] => [']']
  | v :: vs => ',' :: (printCompact v ++ printItemsC vs)

def printFieldsC : List (List Char × Json) → List Char
  | [] => ['\x7d']
  | (k, v) :: fs => ',' :: (printStr k ++ ':' :: (printCompact v ++ printFieldsC fs))

end

/-! ### Parsing: the model of `JSON.parse` -/

/-- Parse errors.  The session surfaces these as its error state; the
messages of the JavaScript engine are abstracted to the error's identity. -/
inductive PErr where
  | unexpectedEnd : PErr
  | unexpectedChar (c : Char) : PErr
  | badControlChar : PErr
  | badUnicodeEscape : PErr
  | badNumber : PErr
  | depthExhausted : PErr
  | trailingData (c : Char) : PErr
  deriving DecidableEq

/-- JSON insignificant whitespace. -/
def jsonWs (c : Char) : Bool := c = ' ' || c = '\t' || c = '\n' || c = '\r'

def skipWs : List Char → List Char
  | [] => []
  | c :: cs => if jsonWs c then skipWs cs else c :: cs

/-- Hexadecimal digit value, both cases accepted. -/
def hexVal (c : Char) : Option Nat :=
  if 48 ≤ c.toNat ∧ c.toNat ≤ 57 then some (c.toNat - 48)
  else if 97 ≤ c.toNat ∧ c.toNat ≤ 102 then some (c.toNat - 87)
  else if 65 ≤ c.toNat ∧ c.toNat ≤ 70 then some (c.toNat - 55)
  else none

/-- JSON string body scanner, positioned just after the opening quote;
returns the decoded characters and the input after the closing quote.
Raw control characters are rejected, escape sequences are decoded. -/
def parseStrBody : List Char → Except PErr (List Char × List Char)
  | [] => .error .unexpectedEnd
  | c :: cs =>
    if c = '"' then .ok ([], cs)
    else if c = '\\' then
      match cs with
      | [] => .error .unexpectedEnd
      | e :: cs₂ =>
        if e = '"' then do
          let (s, r) ← parseStrBody cs₂
          .ok ('"' :: s, r)
        else if e = '\\' then do
          let (s, r) ← parseStrBody cs₂
          .ok ('\\' :: s, r)
        else if e = '/' then do
          let (s, r) ← parseStrBody cs₂
          .ok ('/' :: s, r)
        else if e = 'b' then do
          let (s, r) ← parseStrBody cs₂
          .ok ('\x08' :: s, r)
        else if e = 'f' then do
          let (s, r) ← parseStrBody cs₂
          .ok ('\x0C' :: s, r)
        else if e = 'n' then do
          let (s, r) ← parseStrBody cs₂
          .ok ('\n' :: s, r)
        else if e = 'r' then do
          let (s, r) ← parseStrBody cs₂
          .ok ('\r' :: s, r)
        else if e = 't' then do
          let (s, r) ← parseStrBody cs₂
          .ok ('\t' :: s, r)
        else if e = 'u' then
          match cs₂ with
          | h₁ :: h₂ :: h₃ :: h₄ :: cs₃ =>
            match hexVal h₁, hexVal h₂, hexVal h₃, hexVal h₄ with
            | some a, some b, some c', some d => do
              let (s, r) ← parseStrBody cs₃
              .ok (Char.ofNat (((a * 16 + b) * 16 + c') * 16 + d) :: s, r)
            | _, _, _, _ => .error .badUnicodeEscape
          | _ => .error .unexpectedEnd
        else .error (.unexpectedChar e)
    else if c.toNat < 32 then .error .badControlChar
    else do
      let (s, r) ← parseStrBody cs
      .ok (c :: s, r)

def spanDigits (s : List Char) : List Char × List Char :=
  (s.takeWhile jsIsDigit, s.dropWhile jsIsDigit)

/-- Integer part of a JSON numeral: a single `0`, or a nonzero digit
followed by more digits (leading zeros are not absorbed, so `01` leaves the
`1` as trailing input and fails upstream, as in `JSON.parse`). -/
def parseIntPart : List Char → Except PErr (Nat × List Char)
  | [] => .error .unexpectedEnd
  | c :: cs =>
    if c = '0' then .ok (0, cs)
    else if jsIsDigit c then
      .ok (valOfDigits (c :: (spanDigits cs).1), (spanDigits cs).2)
    else .error (.unexpectedChar c)

/-- Optional fraction part: value, digit count, remaining input. -/
def parseFrac : List Char → Except PErr (Nat × Nat × List Char)
  | [] => .ok (0, 0, [])
  | c :: cs =>
    if c = '.' then
      if (spanDigits cs).1 = [] then .error .badNumber
      else .ok (valOfDigits (spanDigits cs).1, (spanDigits cs).1.length, (spanDigits cs).2)
    else .ok (0, 0, c :: cs)

def parseExpSign : List Char → Bool × List Char
  | [] => (false, [])
  | c :: cs =>
    if c = '+' then (false, cs)
    else if c = '-' then (true, cs)
    else (false, c :: cs)

/-- Optional exponent part: signed exponent value and remaining input. -/
def parseExp : List Char → Except PErr (Int × List Char)
  | c :: cs =>
    if c = 'e' ∨ c = 'E' then
      if (spanDigits (parseExpSign cs).2).1 = [] then .error .badNumber
      else
        .ok
          ((if (parseExpSign cs).1 then
              -(valOfDigits (spanDigits (parseExpSign cs).2).1 : Int)
            else (valOfDigits (spanDigits (parseExpSign cs).2).1 : Int)),
            (spanDigits (parseExpSign cs).2).2)
    else .ok (0, c :: cs)
  | [] => .ok (0, [])

/-- A complete JSON numeral (minus sign already consumed, flag in `neg`). -/
def parseNum (neg : Bool) (s : List Char) : Except PErr (Json × List Char) :=
  match parseIntPart s with
  | .error err => .error err
  | .ok (ip, r₁) =>
    match parseFrac r₁ with
    | .error err => .error err
    | .ok (fv, fl, r₂) =>
      match parseExp r₂ with
      | .error err => .error err
      | .ok (ev, r₃) => .ok (canonNum neg (ip * 10 ^ fl + fv) (ev - fl), r₃)

/-- Ordered-object insertion with JavaScript duplicate-key semantics: a
repeated key keeps its first position but takes the latest value. -/
def insertField (fs : List (List Char × Json)) (k : List Char) (v : Json) :
    List (List Char × Json) :=
  match fs with
  | [] => [(k, v)]
  | (k', v') :: rest => if k' = k then (k', v) :: rest else (k', v') :: insertField rest k v

mutual

/-- The recursive-descent value parser of the `JSON.parse` model.  The fuel
argument bounds recursion; `parseDoc` supplies enough fuel for any input. -/
def parseVal : Nat → List Char → Except PErr (Json × List Char)
  | 0, _ => .error .depthExhausted
  | f + 1, s =>
    match skipWs s with
    | [] => .error .unexpectedEnd
    | c :: cs =>
      if c = '\x7b' then
        match skipWs cs with
        | [] => parseFieldsF f [] []
        | d :: r => if d = '\x7d' then .ok (.obj [], r) else parseFieldsF f (d :: r) []
      else if c = '[' then
        match skipWs cs with
        | [] => parseItemsF f [] []
        | d :: r => if d = ']' then .ok (.arr [], r) else parseItemsF f (d :: r) []
      else if c = '"' then
        match parseStrBody cs with
        | .error err => .error err
        | .ok (str, r) => .ok (.str str, r)
      else if c = 't' then
        match cs with
        | 'r' :: 'u' :: 'e' :: r => .ok (.bool true, r)
        | _ => .error (.unexpectedChar c)
      else if c = 'f' then
        match cs with
        | 'a' :: 'l' :: 's' :: 'e' :: r => .ok (.bool false, r)
        | _ => .error (.unexpectedChar c)
      else if c = 'n' then
        match cs with
        | 'u' :: 'l' :: 'l' :: r => .ok (.null, r)
        | _ => .error (.unexpectedChar c)
      else if c = '-' then parseNum true cs
      else if jsIsDigit c then parseNum false (c :: cs)
      else .error (.unexpectedChar c)

/-- Array-element loop, positioned at the start of an element. -/
def parseItemsF : Nat → List Char → List Json → Except PErr (Json × List Char)
  | 0, _, _ => .error .depthExhausted
  | f + 1, s, acc =>
    match parseVal f s with
    | .error err => .error err
    | .ok (v, r) =>
      match skipWs r with
      | ',' :: r₂ => parseItemsF f r₂ (acc ++ [v])
      | ']' :: r₂ => .ok (.arr (acc ++ [v]), r₂)
      | c :: _ => .error (.unexpectedChar c)
      | [] => .error .unexpectedEnd

/-- Object-member loop, positioned at the opening quote of a key. -/
def parseFieldsF : Nat → List Char → List (List Char × Json) →
    Except PErr (Json × List Char)
  | 0, _, _ => .error .depthExhausted
  | f + 1, s, acc =>
    match s with
    | '"' :: cs =>
      match parseStrBody cs with
      | .error err => .error err
      | .ok (k, r₁) =>
        match skipWs r₁ with
        | ':' :: r₂ =>
          match parseVal f r₂ with
          | .error err => .error err
          | .ok (v, r₃) =>
            match skipWs r₃ with
            | ',' :: r₄ => parseFieldsF f (skipWs r₄) (insertField acc k v)
            | '\x7d' :: r₄ => .ok (.obj (insertField acc k v), r₄)
            | c :: _ => .error (.unexpectedChar c)
            | [] => .error .unexpectedEnd
        | c :: _ => .error (.unexpectedChar c)
        | [] => .error .unexpectedEnd
    | c :: _ => .error (.unexpectedChar c)
    | [] => .error .unexpectedEnd

end

/-- The model of `JSON.parse`: parse one value, then require only
whitespace to remain. -/
def parseDoc (s : List Char) : Except PErr Json :=
  match parseVal (s.length + 1) s with
  | .error err => .error err
  | .ok (v, r) =>
    match skipWs r with
    | [] => .ok v
    | c :: _ => .error (.trailingData c)

/-! ### Well-formedness of parsed values -/

def hasKey (k : List Char) : List (List Char × Json) → Bool
  | [] => false
  | (k', _) :: fs => decide (k' = k) || hasKey k fs

def nodupKeys : List (List Char × Json) → Bool
  | [] => true
  | (k, _) :: fs => !hasKey k fs && nodupKeys fs

mutual

/-- Values in the range of the parser: numbers canonical, object keys
duplicate-free at every level. -/
def wfV : Json → Bool
  | .null => true
  | .bool _ => true
  | .str _ => true
  | .num neg m e =>
    decide ((m = 0 → neg = false ∧ e = 0) ∧ (m ≠ 0 → m % 10 ≠ 0))
  | .arr es => wfL es
  | .obj fs => nodupKeys fs && wfF fs

def wfL : List Json → Bool
  | [] => true
  | v :: vs => wfV v && wfL vs

def wfF : List (List Char × Json) → Bool
  | [] => true
  | (_, v) :: fs => wfV v && wfF fs

end

theorem spanDigits_append (ds rest : List Char) (hds : ∀ c ∈ ds, jsIsDigit c = true)
    (hrest : ∀ c, rest.head? = some c → jsIsDigit c = false) :
    spanDigits (ds ++ rest) = (ds, rest) := by
  induction ds with
  | nil =>
    cases rest with
    | nil => rfl
    | cons c cs =>
      have := hrest c rfl
      simp [spanDigits, List.takeWhile, List.dropWhile, this]
  | cons d ds' ih =>
    have hd : jsIsDigit d = true := hds d (List.mem_cons_self d ds')
    have ih' := ih (fun c hc => hds c (List.mem_cons_of_mem _ hc))
    have h1 : List.takeWhile jsIsDigit (ds' ++ rest) = ds' := congrArg Prod.fst ih'
    have h2 : List.dropWhile jsIsDigit (ds' ++ rest) = rest := congrArg Prod.snd ih'
    simp [spanDigits, List.takeWhile, List.dropWhile, hd, h1, h2]

theorem head?_take (n : Nat) (l : List Char) (h : 1 ≤ n) :
    (l.take n).head? = l.head? := by
  cases n with
  | zero => omega
  | succ n =>
    cases l with
    | nil => rfl
    | cons x xs => rfl

theorem printMant_head (m : Nat) (e : Int) :
    ∃ h t, printMant m e = h :: t ∧ jsIsDigit h = true := by
  by_cases he : 0 ≤ e
  · cases hcase : natDigits m with
    | nil => exact absurd hcase (natDigits_ne_nil m)
    | cons d ds =>
      refine ⟨d, ds ++ List.replicate e.toNat '0', ?_, ?_⟩
      · simp [printMant, he, hcase]
      · exact natDigits_all_digits m d (by rw [hcase]; exact List.mem_cons_self d ds)
  · by_cases hkd : (-e).toNat < (natDigits m).length
    · cases hcase : natDigits m with
      | nil => exact absurd hcase (natDigits_ne_nil m)
      | cons d ds =>
        have hlen : 1 ≤ (natDigits m).length - (-e).toNat := by omega
        refine ⟨d, ((natDigits m).take ((natDigits m).length - (-e).toNat)).tail
          ++ '.' :: (natDigits m).drop ((natDigits m).length - (-e).toNat), ?_, ?_⟩
        · have hp : printMant m e
              = (natDigits m).take ((natDigits m).length - (-e).toNat)
                ++ '.' :: (natDigits m).drop ((natDigits m).length - (-e).toNat) := by
            simp only [printMant]
            rw [if_neg he, if_pos hkd]
          rw [hp]
          have hht : ((natDigits m).take ((natDigits m).length - (-e).toNat)).head? = some d := by
            rw [head?_take _ _ hlen, hcase]
            rfl
          cases htake : (natDigits m).take ((natDigits m).length - (-e).toNat) with
          | nil => rw [htake] at hht; simp at hht
          | cons x xs =>
            rw [htake] at hht
            simp only [List.head?_cons, Option.some.injEq] at hht
            subst hht
            rfl
        · exact natDigits_all_digits m d (by rw [hcase]; exact List.mem_cons_self d ds)
    · refine ⟨'0', '.' :: (List.replicate ((-e).toNat - (natDigits m).length) '0'
        ++ natDigits m), ?_, by rfl⟩
      simp only [printMant]
      rw [if_neg he, if_neg hkd]

theorem sizeV_pos (v : Json) : 1 ≤ sizeV v := by
  cases v with
  | arr es =>
    cases es with
    | nil => simp [sizeV, sizeL]
    | cons v vs => simp [sizeV, sizeL]
  | obj fs =>
    cases fs with
    | nil => simp [sizeV, sizeF]
    | cons f fs => obtain ⟨k, v⟩ := f; simp [sizeV, sizeF]
  | null => simp [sizeV]
  | bool b => simp [sizeV]
  | num neg m e => simp [sizeV]
  | str t => simp [sizeV]

mutual

theorem sizeV_le_printPretty (v : Json) (ind : Nat) :
    sizeV v ≤ (printPretty ind v).length := by
  cases v with
  | null => simp [printPretty, sizeV]
  | bool b => cases b <;> simp [printPretty, sizeV]
  | num neg m e =>
    obtain ⟨h, t, hp, _⟩ := printMant_head m e
    show sizeV (.num neg m e) ≤ (printNum neg m e).length
    rw [printNum, hp]
    cases neg <;> simp [sizeV]
  | str s =>
    show sizeV (.str s) ≤ (printStr s).length
    simp [printStr, sizeV]
  | arr es =>
    cases es with
    | nil => simp [printPretty, sizeV, sizeL]
    | cons v vs =>
      have h1 := sizeV_le_printPretty v (ind + 1)
      have h2 := sizeL_le_printItems vs ind
      show sizeV (.arr (v :: vs)) ≤ (printPretty ind (.arr (v :: vs))).length
      have hsz : sizeV (.arr (v :: vs)) = 1 + (1 + sizeV v + sizeL vs) := rfl
      have hpr : (printPretty ind (.arr (v :: vs))).length
          = 2 + ((pad (ind + 1)).length
            + ((printPretty (ind + 1) v).length + (printItems ind vs).length)) := by
        show ('[' :: '\n' :: (pad (ind + 1)
          ++ (printPretty (ind + 1) v ++ printItems ind vs))).length = _
        simp
        omega
      omega
  | obj fs =>
    cases fs with
    | nil => simp [printPretty, sizeV, sizeF]
    | cons kv fs' =>
      obtain ⟨k, v⟩ := kv
      have h1 := sizeV_le_printPretty v (ind + 1)
      have h2 := sizeF_le_printFields fs' ind
      have hsz : sizeV (.obj ((k, v) :: fs')) = 1 + (1 + sizeV v + sizeF fs') := rfl
      have hpr : (printPretty ind (.obj ((k, v) :: fs'))).length
          = 2 + ((pad (ind + 1)).length + ((printStr k).length + (2
            + ((printPretty (ind + 1) v).length + (printFields ind fs').length)))) := by
        show ('\x7b' :: '\n' :: (pad (ind + 1)
          ++ (printStr k ++ ':' :: ' '
            :: (printPretty (ind + 1) v ++ printFields ind fs')))).length = _
        simp
        omega
      omega

theorem sizeL_le_printItems (vs : List Json) (ind : Nat) :
    sizeL vs ≤ (printItems ind vs).length := by
  cases vs with
  | nil =>
    show sizeL [] ≤ ('\n' :: (pad ind ++ [']'])).length
    simp [sizeL]
  | cons v vs' =>
    have h1 := sizeV_le_printPretty v (ind + 1)
    have h2 := sizeL_le_printItems vs' ind
    have hsz : sizeL (v :: vs') = 1 + sizeV v + sizeL vs' := rfl
    have hpr : (printItems ind (v :: vs')).length
        = 2 + ((pad (ind + 1)).length
          + ((printPretty (ind + 1) v).length + (printItems ind vs').length)) := by
      show (',' :: '\n' :: (pad (ind + 1)
        ++ (printPretty (ind + 1) v ++ printItems ind vs'))).length = _
      simp
      omega
    omega

theorem sizeF_le_printFields (fs : List (List Char × Json)) (ind : Nat) :
    sizeF fs ≤ (printFields ind fs).length := by
  cases fs with
  | nil =>
    show sizeF [] ≤ ('\n' :: (pad ind ++ ['\x7d'])).length
    simp [sizeF]
  | cons kv fs' =>
    obtain ⟨k, v⟩ := kv
    have h1 := sizeV_le_printPretty v (ind + 1)
    have h2 := sizeF_le_printFields fs' ind
    have hsz : sizeF ((k, v) :: fs') = 1 + sizeV v + sizeF fs' := rfl
    have hpr : (printFields ind ((k, v) :: fs')).length
        = 2 + ((pad (ind + 1)).length + ((printStr k).length + (2
          + ((printPretty (ind + 1) v).length + (printFields ind fs').length)))) := by
      show (',' :: '\n' :: (pad (ind + 1)
        ++ (printStr k ++ ':' :: ' '
          :: (printPretty (ind + 1) v ++ printFields ind fs')))).length = _
      simp
      omega
    omega

end

inductive FMode where
  | pretty : FMode
  | raw : FMode
  | tree : FMode
  deriving DecidableEq

inductive AiMode where
  | repair : AiMode
  | types : AiMode
  deriving DecidableEq

/-- The React state of the `App` component (App.tsx lines 46-55); purely
presentational state (notification, sidebar) is omitted. -/
structure Session where
  jsonInput : List Char
  parsedData : Option Json
  selectedData : Option Json
  error : Option PErr
  isProcessing : Bool
  aiMode : Option AiMode
  generatedTypes : Option (List Char)
  formatMode : FMode

/-- Characters removed by JavaScript `String.prototype.trim` (ECMAScript
WhiteSpace and LineTerminator; the common code points). -/
def jsTrimWs (c : Char) : Bool :=
  c = ' ' || c = '\t' || c = '\n' || c = '\r' || c = '\x0B' || c = '\x0C'
    || c = '\u00A0' || c = '\uFEFF' || c = '\u2028' || c = '\u2029'

/-- `!s.trim()` — the buffer is empty or all-whitespace. -/
def isBlank (s : List Char) : Bool := s.all jsTrimWs

/-- The parse `useEffect` on `jsonInput` (App.tsx lines 58-73). -/
def parseEffect (s : Session) : Session :=
  if isBlank s.jsonInput then
    { s with parsedData := none, selectedData := none, error := none }
  else
    match parseDoc s.jsonInput with
    | .ok v => { s with parsedData := some v, selectedData := some v, error := none }
    | .error e => { s with error := some e }

/-- `setJsonInput t` followed by the effect; React bails out (and the effect
does not re-run) when the new value equals the current one. -/
def setInput (t : List Char) (s : Session) : Session :=
  if t = s.jsonInput then s else parseEffect { s with jsonInput := t }

/-- `handleFormat` (App.tsx lines 110-133) at its default argument
`currentInput = jsonInput`. -/
def handleFormat (s : Session) : Session :=
  match parseDoc s.jsonInput with
  | .ok v => { setInput (printPretty 0 v) s with formatMode := .pretty }
  | .error _ =>
    match parseDoc (unescapeString s.jsonInput) with
    | .ok v => { setInput (printPretty 0 v) s with formatMode := .pretty }
    | .error _ => s

/-- `handleMinify` (App.tsx lines 135-156) at its default argument. -/
def handleMinify (s : Session) : Session :=
  match parseDoc s.jsonInput with
  | .ok v => { setInput (printCompact v) s with formatMode := .raw }
  | .error _ =>
    match parseDoc (unescapeString s.jsonInput) with
    | .ok v => { setInput (printCompact v) s with formatMode := .raw }
    | .error _ => s

/-- `toggleFormat` (App.tsx lines 158-198). -/
def toggleFormat (m : FMode) (s : Session) : Session :=
  if m = s.formatMode ∧ m ≠ .tree then s
  else
    let fallThrough : Session :=
      if m = .tree then { s with formatMode := .tree }
      else if m = .pretty then handleFormat s
      else handleMinify s
    if s.error.isSome ∧ (m = .pretty ∨ m = .tree) then
      match parseDoc (unescapeString s.jsonInput) with
      | .ok v =>
        let s1 := setInput (unescapeString s.jsonInput) s
        if m = .pretty then
          { setInput (printPretty 0 v) s1 with formatMode := .pretty }
        else
          { s1 with formatMode := .tree }
      | .error _ => fallThrough
    else fallThrough

/-- `handleClear` (App.tsx lines 200-207): every field reset, then the
effect observes the blank buffer. -/
def handleClear (s : Session) : Session :=
  parseEffect { s with jsonInput := [], parsedData := none,
                       selectedData := none, error := none,
                       generatedTypes := none, aiMode := none }

/-- Result of a geminiService call (types.ts `GenerationResult`). -/
structure GenerationResult where
  content : List Char
  error : Option (List Char)

/-- `handleAiFix` (App.tsx lines 237-254) with the awaited collaborator
result passed in; the transient `isProcessing = true` / `aiMode = repair`
window is elided, the fields hold their post-await values. -/
def handleAiFix (r : GenerationResult) (s : Session) : Session :=
  if s.error.isNone then s
  else
    let s1 := { s with isProcessing := false, aiMode := none }
    match r.error with
    | some _ => s1
    | none => setInput r.content s1

/-- `handleGenerateTypes` (App.tsx lines 256-273); on success `aiMode`
remains `types`. -/
def handleGenerateTypes (r : GenerationResult) (s : Session) : Session :=
  if s.error.isSome || isBlank s.jsonInput then s
  else
    let s1 := { s with isProcessing := false, aiMode := some .types }
    match r.error with
    | some _ => { s1 with aiMode := none }
    | none => { s1 with generatedTypes := some r.content }

/- ### C2 -/

def c2S : Session :=
  { jsonInput := [' '], parsedData := none, selectedData := none,
    error := none, isProcessing := false, aiMode := none,
    generatedTypes := none, formatMode := .pretty }

/-- C2 counterexample: on the all-whitespace buffer " " both the direct parse
and the unescape-then-parse recovery fail, and `handleFormat` does leave the
buffer unchanged, but the error reported to the user is `none` — not the
error of the first (direct) parse attempt, because the parse effect treats a
blank buffer as no-document and never surfaces a parse error for it. -/
theorem c2_counterexample :
    parseEffect c2S = c2S ∧
    parseDoc c2S.jsonInput = .error .unexpectedEnd ∧
    parseDoc (unescapeString c2S.jsonInput) = .error .unexpectedEnd ∧
    (handleFormat c2S).jsonInput = c2S.jsonInput ∧
    (handleFormat c2S).error ≠ some PErr.unexpectedEnd :=
  ⟨rfl, rfl, rfl, rfl, by decide⟩

/-- C2 (amended): for every session consistent with its parse effect whose
buffer is non-blank, if the direct parse fails with error `e` and the
unescape-then-parse recovery also fails, then `handleFormat` leaves the whole
session (in particular the text buffer) unchanged and the surfaced error
equals the first (direct, non-recovery) parse attempt's error `e`. The
original claim is wrong for blank buffers, where both parses would fail but
no error is surfaced at all. -/
theorem c2_format_double_failure (s : Session) (e : PErr)
    (hInv : parseEffect s = s)
    (hnb : isBlank s.jsonInput = false)
    (h1 : parseDoc s.jsonInput = .error e)
    (h2 : ∀ v, parseDoc (unescapeString s.jsonInput) ≠ .ok v) :
    handleFormat s = s ∧ (handleFormat s).error = some e := by
  have hf : handleFormat s = s := by
    unfold handleFormat
    rw [h1]
    cases hr : parseDoc (unescapeString s.jsonInput) with
    | error e2 => rfl
    | ok v => exact absurd hr (h2 v)
  refine ⟨hf, ?_⟩
  rw [hf]
  have h' := hInv
  unfold parseEffect at h'
  rw [if_neg (by simp [hnb])] at h'
  rw [h1] at h'
  have h'' : { s with error := some e } = s := h'
  have h3 : some e = s.error := congrArg Session.error h''
  exact h3.symm

def c2WS : Session :=
  { jsonInput := ['\x7b', 'a'], parsedData := none, selectedData := none,
    error := some (.unexpectedChar 'a'), isProcessing := false,
    aiMode := none, generatedTypes := none, formatMode := .pretty }

theorem c2_witness :
    handleFormat c2WS = c2WS ∧
    (handleFormat c2WS).error = some (PErr.unexpectedChar 'a') :=
  c2_format_double_failure c2WS (.unexpectedChar 'a') rfl rfl rfl
    (by
      intro v h
      have h2 : Except.error (PErr.unexpectedChar 'a') = Except.ok v := h
      exact Except.noConfusion h2)

/- ### C4 -/

def c4S : Session :=
  { jsonInput := ['[', ' ', '1', ' ', ']'],
    parsedData := some (.arr [.num false 1 0]),
    selectedData := some (.arr [.num false 1 0]), error := none,
    isProcessing := false, aiMode := none, generatedTypes := none,
    formatMode := .pretty }

def c4R : Session :=
  { jsonInput := ['\\', '"', '1', '\\', '"'], parsedData := none,
    selectedData := none, error := some (.unexpectedChar '\\'),
    isProcessing := false, aiMode := none, generatedTypes := none,
    formatMode := .pretty }

/-- C4 counterexample: switching to raw mode from another mode runs
`handleMinify`, which is not the identity on the buffer — a valid buffer
"[ 1 ]" is rewritten to its minified form "[1]" — and which does attempt the
unescape-then-parse recovery: on the invalid buffer `\"1\"` (whose direct
parse fails but whose unescaped form parses) the buffer is rewritten to the
minified recovered document. -/
theorem c4_counterexample :
    (toggleFormat .raw c4S).jsonInput = ['[', '1', ']'] ∧
    c4S.jsonInput ≠ ['[', '1', ']'] ∧
    parseDoc c4R.jsonInput = .error (.unexpectedChar '\\') ∧
    parseDoc (unescapeString c4R.jsonInput) = .ok (.str ['1']) ∧
    (toggleFormat .raw c4R).jsonInput = ['"', '1', '"'] :=
  ⟨by decide, by decide, rfl, rfl, by decide⟩

/-- C4 (amended): switching the format mode to raw is the identity on the
session only when the mode is already raw; otherwise it behaves exactly as
`handleMinify`, which may rewrite the buffer to the minified document and
does attempt the unescape-then-parse recovery on parse failure. -/
theorem c4_toggle_raw (s : Session) :
    (s.formatMode = .raw → toggleFormat .raw s = s) ∧
    (s.formatMode ≠ .raw → toggleFormat .raw s = handleMinify s) := by
  constructor
  · intro h
    unfold toggleFormat
    rw [if_pos ⟨h.symm, by decide⟩]
  · intro h
    have hc1 : ¬ (FMode.raw = s.formatMode ∧ FMode.raw ≠ FMode.tree) := by
      rintro ⟨h1, -⟩
      exact h h1.symm
    simp [toggleFormat, hc1]
    intro h1
    exact absurd h1.symm h

def c4W : Session :=
  { jsonInput := ['1'], parsedData := some (.num false 1 0),
    selectedData := some (.num false 1 0), error := none,
    isProcessing := false, aiMode := none, generatedTypes := none,
    formatMode := .raw }

theorem c4_witness :
    toggleFormat .raw c4W = c4W ∧ toggleFormat .raw c4S = handleMinify c4S :=
  ⟨(c4_toggle_raw c4W).1 rfl, (c4_toggle_raw c4S).2 (by decide)⟩

/- ### C7 -/

/-- C7: when an external collaborator call fails, existing state is
untouched — a repair call returning an error leaves the text buffer
byte-identical to its pre-call value, and a type-generation call returning
an error leaves any previously generated interface text unchanged. -/
theorem c7_collaborator_failure (s : Session) (r : GenerationResult)
    (e : List Char) (h : r.error = some e) :
    (handleAiFix r s).jsonInput = s.jsonInput ∧
    (handleGenerateTypes r s).generatedTypes = s.generatedTypes := by
  constructor
  · unfold handleAiFix
    by_cases hn : s.error.isNone
    · rw [if_pos hn]
    · rw [if_neg hn, h]
  · unfold handleGenerateTypes
    by_cases hg : (s.error.isSome || isBlank s.jsonInput) = true
    · rw [if_pos hg]
    · rw [if_neg hg, h]

def c7S : Session :=
  { jsonInput := ['\x7b'], parsedData := none, selectedData := none,
    error := some .unexpectedEnd, isProcessing := false, aiMode := none,
    generatedTypes := some ['T'], formatMode := .pretty }

def c7R : GenerationResult := { content := [], error := some ['E'] }

theorem c7_witness :
    (handleAiFix c7R c7S).jsonInput = c7S.jsonInput ∧
    (handleGenerateTypes c7R c7S).generatedTypes = c7S.generatedTypes :=
  c7_collaborator_failure c7S c7R ['E'] rfl

/- ### C9 -/

def c9S : Session :=
  { jsonInput := ['1'], parsedData := some (.num false 1 0),
    selectedData := some (.num false 1 0), error := none,
    isProcessing := false, aiMode := none, generatedTypes := none,
    formatMode := .pretty }

/-- C9 counterexample: mutating the buffer of a session holding a parsed
value to the all-whitespace text " " — a text on which the parser fails —
does not retain the previously parsed value and surfaces no error: the
effect clears the parsed value, the selection and the error instead. -/
theorem c9_counterexample :
    c9S.parsedData = some (.num false 1 0) ∧
    parseDoc [' '] = .error .unexpectedEnd ∧
    (setInput [' '] c9S).parsedData = none ∧
    (setInput [' '] c9S).error = none :=
  ⟨rfl, rfl, rfl, rfl⟩

/-- C9 (amended): after every text mutation to a NON-BLANK text the session
re-parses the buffer; on success the error is cleared and both the parsed
value and the selection are set to the new root, and on failure the
previously parsed value and selection are retained unchanged while the
parser's error is surfaced verbatim. The original claim is wrong for blank
mutations, where no parse happens and the stale parsed value is cleared
rather than retained. -/
theorem c9_mutation_reparse (s : Session) (t : List Char)
    (hne : t ≠ s.jsonInput) (hnb : isBlank t = false) :
    (∀ v, parseDoc t = .ok v →
      (setInput t s).error = none ∧ (setInput t s).selectedData = some v ∧
      (setInput t s).parsedData = some v) ∧
    (∀ e, parseDoc t = .error e →
      (setInput t s).parsedData = s.parsedData ∧
      (setInput t s).selectedData = s.selectedData ∧
      (setInput t s).error = some e) := by
  have hs : setInput t s = parseEffect { s with jsonInput := t } := by
    unfold setInput
    rw [if_neg hne]
  constructor
  · intro v hv
    rw [hs]
    simp [parseEffect, hnb, hv]
  · intro e he
    rw [hs]
    simp [parseEffect, hnb, he]

def c9W : Session :=
  { jsonInput := [], parsedData := none, selectedData := none,
    error := none, isProcessing := false, aiMode := none,
    generatedTypes := none, formatMode := .pretty }

theorem c9_witness :
    (setInput ['1'] c9W).error = none ∧
    (setInput ['1'] c9W).selectedData = some (.num false 1 0) ∧
    (setInput ['1'] c9W).parsedData = some (.num false 1 0) :=
  (c9_mutation_reparse c9W ['1'] (by decide) rfl).1 (.num false 1 0) rfl

/- ### C10 -/

/-- C10: for every mutation of the buffer to an empty or all-whitespace
text, the session treats it as no-document rather than malformed input: the
parsed value, the selection and the error are all cleared and no parse
error is surfaced. -/
theorem c10_blank_no_document (s : Session) (t : List Char)
    (hb : isBlank t = true) (hne : t ≠ s.jsonInput) :
    (setInput t s).parsedData = none ∧ (setInput t s).selectedData = none ∧
    (setInput t s).error = none := by
  unfold setInput
  rw [if_neg hne]
  simp [parseEffect, hb]

def c10S : Session :=
  { jsonInput := ['\x7b', 'a'], parsedData := none, selectedData := none,
    error := some (.unexpectedChar 'a'), isProcessing := false,
    aiMode := none, generatedTypes := none, formatMode := .pretty }

theorem c10_witness :
    (setInput [' '] c10S).parsedData = none ∧
    (setInput [' '] c10S).selectedData = none ∧
    (setInput [' '] c10S).error = none :=
  c10_blank_no_document c10S [' '] rfl (by decide)

/- ### C5: tree path addressing (JsonTree currentPath / childPath) -/

/-- One step from a node to a child: an object key or an array index. -/
inductive Seg where
  | key (k : List Char) : Seg
  | idx (n : Nat) : Seg
  deriving DecidableEq

/-- The string `Object.keys` yields for the step (array indices print as
decimal numerals). -/
def segStr : Seg → List Char
  | .key k => k
  | .idx n => natDigits n

/-- `currentPath = keyName ? (path ? path+'.'+keyName : keyName) : path`
(part_001 line 105); `none` models an undefined `keyName` prop, an empty
string is falsy like in JavaScript. -/
def currentPath (kn : Option (List Char)) (p : List Char) : List Char :=
  match kn with
  | some k => if k.isEmpty then p else if p.isEmpty then k else p ++ '.' :: k
  | none => p

def lookupField : List (List Char × Json) → List Char → Option Json
  | [], _ => none
  | (k, v) :: fs, q => if k = q then some v else lookupField fs q

/-- The `path` prop handed to the node a list of steps away, starting from a
node with props `keyName = kn`, `path = p` holding value `v`: each child of
an array node gets `currentPath[key]`, each child of an object node gets
`currentPath.key` (bare `key` when `currentPath` is empty), per part_001
line 176.  The root is rendered with `kn = none`, `p = ""`. -/
def pathAt : Json → Option (List Char) → List Char → List Seg → Option (List Char)
  | _, _, p, [] => some p
  | v, kn, p, sg :: rest =>
    let cp := currentPath kn p
    match v, sg with
    | .arr es, .idx n =>
      match es[n]? with
      | some c => pathAt c (some (natDigits n)) (cp ++ '[' :: (natDigits n ++ [']'])) rest
      | none => none
    | .obj fs, .key k =>
      match lookupField fs k with
      | some c => pathAt c (some k) (if cp.isEmpty then k else cp ++ '.' :: k) rest
      | none => none
    | _, _ => none

def goodKeyChar (c : Char) : Bool := !(c == '.') && !(c == '[') && !(c == ']')

def goodKey (k : List Char) : Bool := !k.isEmpty && k.all goodKeyChar

def goodSeg : Seg → Bool
  | .key k => goodKey k
  | .idx _ => true

def goodSegs : List Seg → Bool
  | [] => true
  | s :: r => goodSeg s && goodSegs r

mutual

def goodTree : Json → Bool
  | .null => true
  | .bool _ => true
  | .num _ _ _ => true
  | .str _ => true
  | .arr es => goodTreeL es
  | .obj fs => goodTreeF fs

def goodTreeL : List Json → Bool
  | [] => true
  | v :: vs => goodTree v && goodTreeL vs

def goodTreeF : List (List Char × Json) → Bool
  | [] => true
  | (k, v) :: fs => goodKey k && goodTree v && goodTreeF fs

end

/-- First path component: bare key at depth 0, bracketed index otherwise. -/
def rend1 : Seg → List Char
  | .key k => k
  | .idx n => '[' :: (natDigits n ++ [']'])

/-- Later path component as appended by `childPath`. -/
def rend2 : Seg → List Char
  | .key k => '.' :: k
  | .idx n => '[' :: (natDigits n ++ [']'])

/-- Closed form of the string the component builds below the first step: the
code re-appends the parent's own key (through `currentPath`) before every
child component. -/
def pathStrAux (prev : Seg) : List Seg → List Char
  | [] => []
  | s :: rest => '.' :: (segStr prev ++ (rend2 s ++ pathStrAux s rest))

def pathStr : List Seg → List Char
  | [] => []
  | s :: rest => rend1 s ++ pathStrAux s rest

theorem goodKey_chars {k : List Char} (hk : goodKey k = true) :
    ∀ c ∈ k, goodKeyChar c = true := by
  have h2 := (Bool.and_eq_true_iff.mp hk).2
  exact List.all_eq_true.mp h2

theorem goodKey_not_empty {k : List Char} (hk : goodKey k = true) :
    k.isEmpty = false := by
  have h1 := (Bool.and_eq_true_iff.mp hk).1
  cases hke : k.isEmpty with
  | false => rfl
  | true => rw [hke] at h1; exact absurd h1 (by decide)

theorem segStr_idx_not_empty (n : Nat) : (segStr (.idx n)).isEmpty = false := by
  show (natDigits n).isEmpty = false
  cases hnd : natDigits n with
  | nil => exact absurd hnd (natDigits_ne_nil n)
  | cons a t => rfl

theorem currentPath_some (k p : List Char) (hk : k.isEmpty = false)
    (hp : p.isEmpty = false) :
    currentPath (some k) p = p ++ '.' :: k := by
  simp [currentPath, hk, hp]

theorem goodTreeL_getElem {es : List Json} {n : Nat} {c : Json}
    (hg : goodTreeL es = true) (hc : es[n]? = some c) : goodTree c = true := by
  induction es generalizing n with
  | nil => simp at hc
  | cons v vs ih =>
    have hg' := Bool.and_eq_true_iff.mp hg
    cases n with
    | zero => simp at hc; rw [← hc]; exact hg'.1
    | succ m =>
      have hc' : vs[m]? = some c := by simpa using hc
      exact ih hg'.2 hc'

theorem lookupField_good {fs : List (List Char × Json)} {k : List Char} {c : Json}
    (hg : goodTreeF fs = true) (hc : lookupField fs k = some c) :
    goodKey k = true ∧ goodTree c = true := by
  induction fs with
  | nil => simp [lookupField] at hc
  | cons kv fs' ih =>
    obtain ⟨k', v⟩ := kv
    have hg' := Bool.and_eq_true_iff.mp hg
    have hg'' := Bool.and_eq_true_iff.mp hg'.1
    unfold lookupField at hc
    by_cases hk : k' = k
    · rw [if_pos hk] at hc
      have hcv : v = c := by injection hc
      subst hk
      subst hcv
      exact ⟨hg''.1, hg''.2⟩
    · rw [if_neg hk] at hc
      exact ih hg'.2 hc

theorem append_not_empty {p : List Char} (q : List Char)
    (hp : p.isEmpty = false) : (p ++ q).isEmpty = false := by
  cases p with
  | nil => simp at hp
  | cons a t => rfl

/-- Below the first step the path prop accumulates `"." ++ parent key ++
component`: the parent's key is repeated before every child component. -/
theorem pathAt_str_aux : ∀ (pos : List Seg) (v : Json) (prev : Seg)
    (p res : List Char),
    goodTree v = true →
    (segStr prev).isEmpty = false →
    p.isEmpty = false →
    pathAt v (some (segStr prev)) p pos = some res →
    res = p ++ pathStrAux prev pos ∧ goodSegs pos = true := by
  intro pos
  induction pos with
  | nil =>
    intro v prev p res _ _ _ h
    have h' : some p = some res := h
    have hp : p = res := by injection h'
    subst hp
    simp [pathStrAux, goodSegs]
  | cons s rest ih =>
    intro v prev p res hgt hprev hp h
    cases s with
    | idx n =>
      cases v with
      | null => exact absurd h (by simp [pathAt])
      | bool b => exact absurd h (by simp [pathAt])
      | num a b c => exact absurd h (by simp [pathAt])
      | str t => exact absurd h (by simp [pathAt])
      | obj fs => exact absurd h (by simp [pathAt])
      | arr es =>
        simp only [pathAt] at h
        cases hc : es[n]? with
        | none => rw [hc] at h; exact absurd h (by simp)
        | some c =>
          rw [hc] at h
          rw [currentPath_some (segStr prev) p hprev hp] at h
          have hgc : goodTree c = true := goodTreeL_getElem hgt hc
          have hp' : ((p ++ '.' :: segStr prev) ++ '[' :: (natDigits n ++ [']'])).isEmpty = false :=
            append_not_empty _ (append_not_empty _ hp)
          obtain ⟨hres, hgs⟩ :=
            ih c (.idx n) _ res hgc (segStr_idx_not_empty n) hp' h
          constructor
          · rw [hres]
            simp [pathStrAux, rend2, segStr]
          · simp [goodSegs, goodSeg, hgs]
    | key k =>
      cases v with
      | null => exact absurd h (by simp [pathAt])
      | bool b => exact absurd h (by simp [pathAt])
      | num a b c => exact absurd h (by simp [pathAt])
      | str t => exact absurd h (by simp [pathAt])
      | arr es => exact absurd h (by simp [pathAt])
      | obj fs =>
        simp only [pathAt] at h
        cases hc : lookupField fs k with
        | none => rw [hc] at h; exact absurd h (by simp)
        | some c =>
          rw [hc] at h
          rw [currentPath_some (segStr prev) p hprev hp] at h
          obtain ⟨hgk, hgc⟩ := lookupField_good hgt hc
          rw [if_neg (by simp [append_not_empty _ hp])] at h
          have hp' : ((p ++ '.' :: segStr prev) ++ '.' :: k).isEmpty = false :=
            append_not_empty _ (append_not_empty _ hp)
          obtain ⟨hres, hgs⟩ :=
            ih c (.key k) _ res hgc (goodKey_not_empty hgk) hp' h
          constructor
          · rw [hres]
            simp [pathStrAux, rend2, segStr]
          · simp [goodSegs, goodSeg, hgk, hgs]

/-- From the root, a reachable position's path prop is `pathStr` of the
position, and (on a tree with good keys) every step of the position is
good. -/
theorem pathAt_root_str (pos : List Seg) (v : Json) (res : List Char)
    (hgt : goodTree v = true) (h : pathAt v none [] pos = some res) :
    res = pathStr pos ∧ goodSegs pos = true := by
  cases pos with
  | nil =>
    have h' : some ([] : List Char) = some res := h
    have : ([] : List Char) = res := by injection h'
    subst this
    simp [pathStr, goodSegs]
  | cons s rest =>
    cases s with
    | idx n =>
      cases v with
      | null => exact absurd h (by simp [pathAt])
      | bool b => exact absurd h (by simp [pathAt])
      | num a b c => exact absurd h (by simp [pathAt])
      | str t => exact absurd h (by simp [pathAt])
      | obj fs => exact absurd h (by simp [pathAt])
      | arr es =>
        simp only [pathAt, currentPath, List.nil_append] at h
        cases hc : es[n]? with
        | none => rw [hc] at h; exact absurd h (by simp)
        | some c =>
          rw [hc] at h
          have hgc : goodTree c = true := goodTreeL_getElem hgt hc
          obtain ⟨hres, hgs⟩ :=
            pathAt_str_aux rest c (.idx n) ('[' :: (natDigits n ++ [']'])) res
              hgc (segStr_idx_not_empty n) rfl h
          constructor
          · rw [hres]
            simp [pathStr, rend1]
          · simp [goodSegs, goodSeg, hgs]
    | key k =>
      cases v with
      | null => exact absurd h (by simp [pathAt])
      | bool b => exact absurd h (by simp [pathAt])
      | num a b c => exact absurd h (by simp [pathAt])
      | str t => exact absurd h (by simp [pathAt])
      | arr es => exact absurd h (by simp [pathAt])
      | obj fs =>
        simp only [pathAt, currentPath, List.isEmpty_nil, if_true] at h
        cases hc : lookupField fs k with
        | none => rw [hc] at h; exact absurd h (by simp)
        | some c =>
          rw [hc] at h
          obtain ⟨hgk, hgc⟩ := lookupField_good hgt hc
          obtain ⟨hres, hgs⟩ :=
            pathAt_str_aux rest c (.key k) _ res hgc (goodKey_not_empty hgk)
              (goodKey_not_empty hgk) h
          constructor
          · rw [hres]
            simp [pathStr, rend1]
          · simp [goodSegs, goodSeg, hgk, hgs]

def takeKey : List Char → List Char × List Char
  | [] => ([], [])
  | c :: cs =>
    if goodKeyChar c then
      let r := takeKey cs
      (c :: r.1, r.2)
    else ([], c :: cs)

/-- The first character of a continuation, if any, is not a key character. -/
def headNotKey : List Char → Prop
  | [] => True
  | c :: _ => goodKeyChar c = false

theorem takeKey_append (k A : List Char)
    (hk : ∀ c ∈ k, goodKeyChar c = true) (hA : headNotKey A) :
    takeKey (k ++ A) = (k, A) := by
  induction k with
  | nil =>
    cases A with
    | nil => rfl
    | cons c cs =>
      have hc : goodKeyChar c = false := hA
      simp [takeKey, hc]
  | cons c cs ih =>
    have hc : goodKeyChar c = true := hk c (List.mem_cons_self c cs)
    have ih' := ih (fun d hd => hk d (List.mem_cons_of_mem c hd))
    simp [takeKey, hc, ih']

theorem key_tok_cancel (k k' A A' : List Char)
    (hk : ∀ c ∈ k, goodKeyChar c = true) (hk' : ∀ c ∈ k', goodKeyChar c = true)
    (hA : headNotKey A) (hA' : headNotKey A')
    (h : k ++ A = k' ++ A') : k = k' ∧ A = A' := by
  have h2 := congrArg takeKey h
  rw [takeKey_append k A hk hA, takeKey_append k' A' hk' hA'] at h2
  exact ⟨congrArg Prod.fst h2, congrArg Prod.snd h2⟩

theorem natDigits_inj {n m : Nat} (h : natDigits n = natDigits m) : n = m := by
  have h2 := congrArg valOfDigits h
  rwa [valOfDigits_natDigits, valOfDigits_natDigits] at h2

theorem idx_tok_cancel (n m : Nat) (A A' : List Char)
    (h : natDigits n ++ ']' :: A = natDigits m ++ ']' :: A') :
    n = m ∧ A = A' := by
  have h2 := congrArg spanDigits h
  rw [spanDigits_append _ _ (natDigits_all_digits n)
        (by intro c hc; simp at hc; rw [← hc]; rfl),
      spanDigits_append _ _ (natDigits_all_digits m)
        (by intro c hc; simp at hc; rw [← hc]; rfl)] at h2
  have hd : natDigits n = natDigits m := congrArg Prod.fst h2
  have ht : ']' :: A = ']' :: A' := congrArg Prod.snd h2
  refine ⟨natDigits_inj hd, ?_⟩
  injection ht

theorem headNotKey_pathStrAux (prev : Seg) (r : List Seg) :
    headNotKey (pathStrAux prev r) := by
  cases r with
  | nil => trivial
  | cons s rest =>
    show goodKeyChar '.' = false
    rfl

theorem pathStrAux_inj : ∀ (r u : List Seg) (prev : Seg),
    goodSegs r = true → goodSegs u = true →
    pathStrAux prev r = pathStrAux prev u → r = u := by
  intro r
  induction r with
  | nil =>
    intro u prev _ _ h
    cases u with
    | nil => rfl
    | cons t u' => exact absurd h (by simp [pathStrAux])
  | cons s r' ih =>
    intro u prev hgr hgu h
    cases u with
    | nil => exact absurd h (by simp [pathStrAux])
    | cons t u' =>
      simp only [pathStrAux, List.cons.injEq, true_and] at h
      have h2 : rend2 s ++ pathStrAux s r' = rend2 t ++ pathStrAux t u' :=
        List.append_cancel_left h
      have hgr' := Bool.and_eq_true_iff.mp hgr
      have hgu' := Bool.and_eq_true_iff.mp hgu
      cases s with
      | key k =>
        cases t with
        | idx m =>
          have h3 := congrArg List.head? h2
          simp [rend2] at h3
        | key k' =>
          have h3 : k ++ pathStrAux (Seg.key k) r'
              = k' ++ pathStrAux (Seg.key k') u' := by
            have h4 : '.' :: (k ++ pathStrAux (Seg.key k) r')
                = '.' :: (k' ++ pathStrAux (Seg.key k') u') := by
              simpa [rend2] using h2
            injection h4
          obtain ⟨hk, hA⟩ := key_tok_cancel k k' _ _
            (goodKey_chars hgr'.1) (goodKey_chars hgu'.1)
            (headNotKey_pathStrAux _ _) (headNotKey_pathStrAux _ _) h3
          subst hk
          rw [ih u' (Seg.key k) hgr'.2 hgu'.2 hA]
      | idx n =>
        cases t with
        | key k' =>
          have h3 := congrArg List.head? h2
          simp [rend2] at h3
        | idx m =>
          have h3 : natDigits n ++ ']' :: pathStrAux (Seg.idx n) r'
              = natDigits m ++ ']' :: pathStrAux (Seg.idx m) u' := by
            have h4 : '[' :: (natDigits n ++ ']' :: pathStrAux (Seg.idx n) r')
                = '[' :: (natDigits m ++ ']' :: pathStrAux (Seg.idx m) u') := by
              simpa [rend2, List.append_assoc] using h2
            injection h4
          obtain ⟨hnm, hA⟩ := idx_tok_cancel n m _ _ h3
          subst hnm
          rw [ih u' (Seg.idx n) hgr'.2 hgu'.2 hA]

theorem pathStr_cons_head (t : Seg) (u : List Seg) (hg : goodSeg t = true) :
    ∃ c rest, pathStr (t :: u) = c :: rest := by
  cases t with
  | key k =>
    cases hk : k with
    | nil =>
      rw [hk] at hg
      exact absurd (goodKey_not_empty hg) (by simp)
    | cons c cs => exact ⟨c, cs ++ pathStrAux (Seg.key k) u, by simp [pathStr, rend1, hk]⟩
  | idx n => exact ⟨'[', natDigits n ++ [']'] ++ pathStrAux (Seg.idx n) u, by simp [pathStr, rend1]⟩

theorem pathStr_inj (r u : List Seg) (hgr : goodSegs r = true)
    (hgu : goodSegs u = true) (h : pathStr r = pathStr u) : r = u := by
  cases r with
  | nil =>
    cases u with
    | nil => rfl
    | cons t u' =>
      have hgt := (Bool.and_eq_true_iff.mp hgu).1
      obtain ⟨c, rest, he⟩ := pathStr_cons_head t u' hgt
      rw [he] at h
      exact absurd h (by simp [pathStr])
  | cons s r' =>
    cases u with
    | nil =>
      have hgs := (Bool.and_eq_true_iff.mp hgr).1
      obtain ⟨c, rest, he⟩ := pathStr_cons_head s r' hgs
      rw [he] at h
      exact absurd h (by simp [pathStr])
    | cons t u' =>
      have hgr' := Bool.and_eq_true_iff.mp hgr
      have hgu' := Bool.and_eq_true_iff.mp hgu
      cases s with
      | key k =>
        cases t with
        | idx m =>
          obtain ⟨c, rest, he⟩ := pathStr_cons_head (Seg.key k) r' hgr'.1
          rw [he] at h
          have hch : c :: rest = pathStr (Seg.idx m :: u') := h
          have hc : goodKeyChar c = true := by
            have he2 : k ++ pathStrAux (Seg.key k) r' = c :: rest := he
            cases hk : k with
            | nil =>
              rw [hk] at hgr'
              exact absurd (goodKey_not_empty hgr'.1) (by simp)
            | cons c0 cs =>
              rw [hk] at he2
              have : c0 = c := by
                have := congrArg List.head? he2
                simpa using this
              rw [← this]
              exact goodKey_chars hgr'.1 c0 (by simp [hk])
          have hbr : c = '[' := by
            have := congrArg List.head? hch
            simpa [pathStr, rend1] using this
          rw [hbr] at hc
          exact absurd hc (by decide)
        | key k' =>
          have h3 : k ++ pathStrAux (Seg.key k) r'
              = k' ++ pathStrAux (Seg.key k') u' := h
          obtain ⟨hk, hA⟩ := key_tok_cancel k k' _ _
            (goodKey_chars hgr'.1) (goodKey_chars hgu'.1)
            (headNotKey_pathStrAux _ _) (headNotKey_pathStrAux _ _) h3
          subst hk
          rw [pathStrAux_inj r' u' (Seg.key k) hgr'.2 hgu'.2 hA]
      | idx n =>
        cases t with
        | key k' =>
          obtain ⟨c, rest, he⟩ := pathStr_cons_head (Seg.key k') u' hgu'.1
          rw [he] at h
          have hch : pathStr (Seg.idx n :: r') = c :: rest := h
          have hc : goodKeyChar c = true := by
            have he2 : k' ++ pathStrAux (Seg.key k') u' = c :: rest := he
            cases hk : k' with
            | nil =>
              rw [hk] at hgu'
              exact absurd (goodKey_not_empty hgu'.1) (by simp)
            | cons c0 cs =>
              rw [hk] at he2
              have : c0 = c := by
                have := congrArg List.head? he2
                simpa using this
              rw [← this]
              exact goodKey_chars hgu'.1 c0 (by simp [hk])
          have hbr : c = '[' := by
            have h5 := congrArg List.head? hch
            exact (by simpa [pathStr, rend1] using h5 : '[' = c).symm
          rw [hbr] at hc
          exact absurd hc (by decide)
        | idx m =>
          have h3 : natDigits n ++ ']' :: pathStrAux (Seg.idx n) r'
              = natDigits m ++ ']' :: pathStrAux (Seg.idx m) u' := by
            have h4 : '[' :: (natDigits n ++ ']' :: pathStrAux (Seg.idx n) r')
                = '[' :: (natDigits m ++ ']' :: pathStrAux (Seg.idx m) u') := by
              simpa [pathStr, rend1, List.append_assoc] using h
            injection h4
          obtain ⟨hnm, hA⟩ := idx_tok_cancel n m _ _ h3
          subst hnm
          rw [pathStrAux_inj r' u' (Seg.idx n) hgr'.2 hgu'.2 hA]

def c5V : Json :=
  .obj [(['a', '.', 'a', '.', 'b'], .num false 1 0),
        (['a'], .obj [(['b'], .num false 2 0)])]

/-- C5 counterexample: in the tree whose root object has the two keys
"a.a.b" and "a" (the latter holding an object with key "b"), the top-level
position at key "a.a.b" and the two-step position a → b both receive the
path string "a.a.b" — the two-step path, under the code's key-doubling
`currentPath`, renders as parent key "a" doubled to "a.a" before ".b". The
mapping is therefore not injective for every fixed value tree. -/
theorem c5_counterexample :
    pathAt c5V none [] [.key ['a', '.', 'a', '.', 'b']]
      = some ['a', '.', 'a', '.', 'b'] ∧
    pathAt c5V none [] [.key ['a'], .key ['b']]
      = some ['a', '.', 'a', '.', 'b'] ∧
    ([Seg.key ['a', '.', 'a', '.', 'b']] : List Seg)
      ≠ [Seg.key ['a'], Seg.key ['b']] :=
  ⟨rfl, rfl, by decide⟩

/-- C5 (amended): path addressing is injective for every value tree all of
whose object keys are nonempty and contain none of the characters '.', '['
and ']': two reachable positions of such a tree that receive the same path
string are the same position. Without that restriction injectivity fails
(the code doubles each parent key in the child path, letting a dotted key
collide with a nested path). -/
theorem c5_path_injective (v : Json) (pos1 pos2 : List Seg) (p : List Char)
    (hgt : goodTree v = true)
    (h1 : pathAt v none [] pos1 = some p)
    (h2 : pathAt v none [] pos2 = some p) :
    pos1 = pos2 := by
  obtain ⟨hp1, hg1⟩ := pathAt_root_str pos1 v p hgt h1
  obtain ⟨hp2, hg2⟩ := pathAt_root_str pos2 v p hgt h2
  exact pathStr_inj pos1 pos2 hg1 hg2 (by rw [← hp1, ← hp2])

def c5W : Json := .obj [(['a'], .arr [.obj [(['b'], .null)]])]

theorem c5_witness :
    ([Seg.key ['a'], Seg.idx 0, Seg.key ['b']] : List Seg)
      = [Seg.key ['a'], Seg.idx 0, Seg.key ['b']] :=
  c5_path_injective c5W [.key ['a'], .idx 0, .key ['b']]
    [.key ['a'], .idx 0, .key ['b']] ['a', '.', 'a', '[', '0', ']', '.', '0', '.', 'b']
    rfl rfl rfl

/- ### C6: tree view expansion state and rendered rows -/

/-- `reaches p q`: the position `q` lies in the subtree rooted at `p`
(including `q = p`). -/
def reaches (p q : List Seg) : Prop := ∃ r, p ++ r = q

/-- Boolean form of `reaches`. -/
def reachesB : List Seg → List Seg → Bool
  | [], _ => true
  | _ :: _, [] => false
  | s :: ps, t :: qs => decide (s = t) && reachesB ps qs

/-- The tree panel: the parsed value plus, for each position, the
`isExpanded` flag the component instance at that position would render
with.  A mounted instance's flag is its `useState` cell; an unmounted
position carries `true`, the `useState(true)` default its instance will
initialize with when (re)mounted. -/
structure TreeView where
  val : Json
  expanded : List Seg → Bool

/-- `toggleExpand` of the node at `pos` (part_001 lines 75-78):
`setIsExpanded(!isExpanded)` on that instance.  Because the children are
rendered under `{isExpanded && ...}` (part_001 line 171), collapsing
unmounts every descendant instance, destroying its `useState` cell, and any
later remount re-initializes it with `useState(true)`; expanding mounts
fresh descendant instances, likewise initialized `true`.  Either way, after
the toggle every strict descendant of `pos` carries the default `true`. -/
def toggleExpand (pos : List Seg) (t : TreeView) : TreeView :=
  { t with expanded := fun q =>
      if q = pos then !(t.expanded q)
      else if reachesB pos q then true
      else t.expanded q }

/-- A rendered line of the tree panel. -/
inductive Row where
  | openRow (pos : List Seg) (count : Nat) : Row
  | closedRow (pos : List Seg) (count : Nat) : Row
  | closeBracket (pos : List Seg) : Row
  | prim (pos : List Seg) (v : Json) : Row

mutual

/-- Lines rendered for the node at `pos` holding `v` (part_001): a nonempty
composite shows its header, then - only when expanded - its children and a
closing-bracket line; primitives and empty composites show one line. -/
def rowsV (ex : List Seg → Bool) (pos : List Seg) : Json → List Row
  | .null => [.prim pos .null]
  | .bool b => [.prim pos (.bool b)]
  | .num neg m e => [.prim pos (.num neg m e)]
  | .str s => [.prim pos (.str s)]
  | .arr [] => [.prim pos (.arr [])]
  | .arr (v :: vs) =>
    if ex pos then
      .openRow pos (vs.length + 1)
        :: (rowsIdx ex pos 0 (v :: vs) ++ [.closeBracket pos])
    else [.closedRow pos (vs.length + 1)]
  | .obj [] => [.prim pos (.obj [])]
  | .obj (f :: fs) =>
    if ex pos then
      .openRow pos (fs.length + 1)
        :: (rowsFld ex pos (f :: fs) ++ [.closeBracket pos])
    else [.closedRow pos (fs.length + 1)]

def rowsIdx (ex : List Seg → Bool) (pos : List Seg) (i : Nat) :
    List Json → List Row
  | [] => []
  | v :: vs => rowsV ex (pos ++ [.idx i]) v ++ rowsIdx ex pos (i + 1) vs

def rowsFld (ex : List Seg → Bool) (pos : List Seg) :
    List (List Char × Json) → List Row
  | [] => []
  | (k, v) :: fs => rowsV ex (pos ++ [.key k]) v ++ rowsFld ex pos fs

end

/-- The single line the node at `pos` renders for itself (its header, or its
primitive line), independent of what its children render. -/
def ownRow (ex : List Seg → Bool) (pos : List Seg) : Json → Row
  | .arr (_ :: vs) =>
    if ex pos then .openRow pos (vs.length + 1) else .closedRow pos (vs.length + 1)
  | .obj (_ :: fs) =>
    if ex pos then .openRow pos (fs.length + 1) else .closedRow pos (fs.length + 1)
  | v => .prim pos v

theorem reaches_self (p : List Seg) : reaches p p := ⟨[], by simp⟩

theorem reaches_extend {p q : List Seg} (s : Seg) (h : reaches (p ++ [s]) q) :
    reaches p q := by
  obtain ⟨r, hr⟩ := h
  exact ⟨[s] ++ r, by rw [← List.append_assoc, hr]⟩

theorem reachesB_iff : ∀ (p q : List Seg), reachesB p q = true ↔ reaches p q := by
  intro p
  induction p with
  | nil =>
    intro q
    simp only [reachesB, true_iff]
    exact ⟨q, by simp⟩
  | cons s ps ih =>
    intro q
    cases q with
    | nil =>
      simp only [reachesB]
      constructor
      · intro h
        exact absurd h (by simp)
      · rintro ⟨r, hr⟩
        simp at hr
    | cons t qs =>
      simp only [reachesB, Bool.and_eq_true_iff, decide_eq_true_eq, ih qs]
      constructor
      · rintro ⟨he, ⟨r, hr⟩⟩
        exact ⟨r, by simp [he, hr]⟩
      · rintro ⟨r, hr⟩
        simp only [List.cons_append, List.cons.injEq] at hr
        exact ⟨hr.1, ⟨r, hr.2⟩⟩

/-- Two positions above a common position are comparable. -/
theorem reaches_comparable : ∀ (p q r : List Seg), reaches p r → reaches q r →
    reaches p q ∨ reaches q p := by
  intro p
  induction p with
  | nil => intro q r _ _; exact Or.inl ⟨q, by simp⟩
  | cons s ps ih =>
    intro q r h1 h2
    cases q with
    | nil => exact Or.inr ⟨s :: ps, by simp⟩
    | cons t qs =>
      obtain ⟨a, ha⟩ := h1
      obtain ⟨b, hb⟩ := h2
      rw [← hb] at ha
      simp only [List.cons_append, List.cons.injEq] at ha
      obtain ⟨hst, hpq⟩ := ha
      subst hst
      cases ih qs (qs ++ b) ⟨a, hpq⟩ ⟨b, rfl⟩ with
      | inl h =>
        obtain ⟨c, hc⟩ := h
        exact Or.inl ⟨c, by simp [hc]⟩
      | inr h =>
        obtain ⟨c, hc⟩ := h
        exact Or.inr ⟨c, by simp [hc]⟩

mutual

theorem rowsV_congr (v : Json) (pos : List Seg) (ex ex' : List Seg → Bool)
    (h : ∀ q, reaches pos q → ex q = ex' q) :
    rowsV ex pos v = rowsV ex' pos v := by
  cases v with
  | null => rfl
  | bool b => rfl
  | num neg m e => rfl
  | str s => rfl
  | arr es =>
    cases es with
    | nil => rfl
    | cons v vs =>
      have hpos := h pos (reaches_self pos)
      have hch := rowsIdx_congr (v :: vs) pos 0 ex ex' h
      simp only [rowsV, hpos, hch]
  | obj fs =>
    cases fs with
    | nil => rfl
    | cons f fs' =>
      have hpos := h pos (reaches_self pos)
      have hch := rowsFld_congr (f :: fs') pos ex ex' h
      simp only [rowsV, hpos, hch]

theorem rowsIdx_congr (es : List Json) (pos : List Seg) (i : Nat)
    (ex ex' : List Seg → Bool) (h : ∀ q, reaches pos q → ex q = ex' q) :
    rowsIdx ex pos i es = rowsIdx ex' pos i es := by
  cases es with
  | nil => rfl
  | cons v vs =>
    have h1 := rowsV_congr v (pos ++ [.idx i]) ex ex'
      (fun q hq => h q (reaches_extend _ hq))
    have h2 := rowsIdx_congr vs pos (i + 1) ex ex' h
    simp only [rowsIdx, h1, h2]

theorem rowsFld_congr (fs : List (List Char × Json)) (pos : List Seg)
    (ex ex' : List Seg → Bool) (h : ∀ q, reaches pos q → ex q = ex' q) :
    rowsFld ex pos fs = rowsFld ex' pos fs := by
  cases fs with
  | nil => rfl
  | cons f fs' =>
    obtain ⟨k, v⟩ := f
    have h1 := rowsV_congr v (pos ++ [.key k]) ex ex'
      (fun q hq => h q (reaches_extend _ hq))
    have h2 := rowsFld_congr fs' pos ex ex' h
    simp only [rowsFld, h1, h2]

end

def c6C : TreeView :=
  { val := .obj [(['a'], .obj [(['b'], .arr [.null])])],
    expanded := fun q => if q = [Seg.key ['a'], Seg.key ['b']] then false else true }

/-- C6 counterexample: in a tree `a → b → [null]` with node `b` collapsed
by the user and its parent `a` expanded, toggling `a` (collapsing it)
unmounts `b`, whose `useState` cell is destroyed; `b`'s stored state is now
the remount default `true`, not the `false` the user set.  In particular
collapsing `a` and expanding it again — which the original claim says only
hides and re-shows the descendants' unchanged rendering — brings `b` back
expanded: the descendant did not retain its stored expanded state. -/
theorem c6_counterexample :
    c6C.expanded [Seg.key ['a']] = true ∧
    c6C.expanded [Seg.key ['a'], Seg.key ['b']] = false ∧
    (toggleExpand [Seg.key ['a']] c6C).expanded [Seg.key ['a'], Seg.key ['b']]
      = true ∧
    (toggleExpand [Seg.key ['a']] (toggleExpand [Seg.key ['a']] c6C)).expanded
        [Seg.key ['a']] = c6C.expanded [Seg.key ['a']] ∧
    (toggleExpand [Seg.key ['a']] (toggleExpand [Seg.key ['a']] c6C)).expanded
        [Seg.key ['a'], Seg.key ['b']]
      ≠ c6C.expanded [Seg.key ['a'], Seg.key ['b']] :=
  ⟨by decide, by decide, by decide, by decide, by decide⟩

/-- C6 (amended): toggling the node at `pos` flips that node's flag and does
not mutate the value tree; every node outside the toggled node's subtree
retains its stored expanded state, every subtree disjoint from the toggled
node's (every sibling's) renders identically, and every node outside the
toggled subtree (ancestors included) renders its own line unchanged.  But,
contrary to the original claim, descendants do NOT retain their stored
state: the children are rendered under `isExpanded &&`, so the toggle
unmounts (or freshly mounts) every strict descendant and its stored state
afterwards is the `useState(true)` mount default, whatever it was before. -/
theorem c6_toggle_frame (t : TreeView) (pos : List Seg) :
    (toggleExpand pos t).val = t.val ∧
    (toggleExpand pos t).expanded pos = !(t.expanded pos) ∧
    (∀ q, ¬ reaches pos q → (toggleExpand pos t).expanded q = t.expanded q) ∧
    (∀ q, reaches pos q → q ≠ pos → (toggleExpand pos t).expanded q = true) ∧
    (∀ q sub, ¬ reaches q pos → ¬ reaches pos q →
      rowsV (toggleExpand pos t).expanded q sub = rowsV t.expanded q sub) ∧
    (∀ q sub, ¬ reaches pos q →
      ownRow (toggleExpand pos t).expanded q sub = ownRow t.expanded q sub) := by
  refine ⟨rfl, by simp [toggleExpand], ?_, ?_, ?_, ?_⟩
  · intro q hq
    have hne : q ≠ pos := by
      intro he
      subst he
      exact hq (reaches_self q)
    have hb : reachesB pos q = false := by
      cases hbb : reachesB pos q with
      | false => rfl
      | true => exact absurd ((reachesB_iff pos q).mp hbb) hq
    simp [toggleExpand, hne, hb]
  · intro q hq hne
    have hb : reachesB pos q = true := (reachesB_iff pos q).mpr hq
    simp [toggleExpand, hne, hb]
  · intro q sub h1 h2
    apply rowsV_congr
    intro r hr
    have hrp : r ≠ pos := by
      intro he
      subst he
      exact h1 hr
    have hb : reachesB pos r = false := by
      cases hbb : reachesB pos r with
      | false => rfl
      | true =>
        have hpr := (reachesB_iff pos r).mp hbb
        cases reaches_comparable q pos r hr hpr with
        | inl h => exact absurd h h1
        | inr h => exact absurd h h2
    simp [toggleExpand, hrp, hb]
  · intro q sub hq
    have hne : q ≠ pos := by
      intro he
      subst he
      exact hq (reaches_self q)
    have hb : reachesB pos q = false := by
      cases hbb : reachesB pos q with
      | false => rfl
      | true => exact absurd ((reachesB_iff pos q).mp hbb) hq
    have hev : (toggleExpand pos t).expanded q = t.expanded q := by
      simp [toggleExpand, hne, hb]
    cases sub with
    | arr es => cases es <;> simp [ownRow, hev]
    | obj fs => cases fs <;> simp [ownRow, hev]
    | null => rfl
    | bool b => rfl
    | num neg m e => rfl
    | str s => rfl

def c6T : TreeView :=
  { val := .obj [(['a'], .arr [.null]), (['b'], .null)],
    expanded := fun _ => true }

theorem c6_witness :
    (toggleExpand [Seg.key ['a']] c6T).val = c6T.val ∧
    (toggleExpand [Seg.key ['a']] c6T).expanded [Seg.key ['b']]
      = c6T.expanded [Seg.key ['b']] ∧
    (toggleExpand [Seg.key ['a']] c6T).expanded [Seg.key ['a'], Seg.idx 0]
      = true ∧
    rowsV (toggleExpand [Seg.key ['a']] c6T).expanded [Seg.key ['b']] .null
      = rowsV c6T.expanded [Seg.key ['b']] .null ∧
    ownRow (toggleExpand [Seg.key ['a']] c6T).expanded [] c6T.val
      = ownRow c6T.expanded [] c6T.val := by
  obtain ⟨h1, h2, h3, h4, h5, h6⟩ := c6_toggle_frame c6T [Seg.key ['a']]
  refine ⟨h1, h3 [Seg.key ['b']] ?_,
          h4 [Seg.key ['a'], Seg.idx 0] ⟨[Seg.idx 0], rfl⟩ (by decide),
          h5 [Seg.key ['b']] .null ?_ ?_, h6 [] c6T.val ?_⟩
  · rintro ⟨r, hr⟩
    simp at hr
  · rintro ⟨r, hr⟩
    simp at hr
  · rintro ⟨r, hr⟩
    simp at hr
  · rintro ⟨r, hr⟩
    simp at hr

end LuminaJson
